import Mathlib

/-!
Verification development for the KMZ overlay bulk-automation tool
(src/kmzAutomationBulk.py).  The Python source is shallowly embedded:

* XML element trees become the inductive type `Element` (tag, text,
  ordered children).  KML tags carry a fixed namespace on every element
  name in the source; the constant namespace wrapper is elided, so the
  embedded tag `"GroundOverlay"` stands for the namespaced tag used by
  the source.
* Pure string helpers (`rsplit`, `basename`, `splitext`, `strip`, path
  join) are translated directly; Python character classes are modelled
  over ASCII.
* Filesystem side effects of `modify_kml` are recorded as an `FsOp`
  list; `os.path.exists` and `os.path.isfile` become boolean oracles.
* Exceptions that propagate (`ValueError` from `Element.remove`,
  `ParseError` from `ET.parse`, archive errors) become explicit
  outcome constructors.
* `sorted` (a stable sort) is modelled by a stable insertion sort,
  extensionally equal to any stable sort over the same key order.
-/

/-! ## String and path helpers -/

/-- The sentinel key from `parse_trailing_number` (source line 50): 999999999. -/
def SENTINEL : Nat := 999999999

/-- Models Python `s.rsplit(sep, 1)`: splits on the last occurrence of
`sep`; `none` when `sep` does not occur (Python then returns a
one-element list).  Returns the parts before and after the last
separator. -/
def rsplitLast (sep : Char) : List Char → Option (List Char × List Char)
  | [] => none
  | c :: cs =>
    match rsplitLast sep cs with
    | some pq => some (c :: pq.1, pq.2)
    | none => if c == sep then some ([], cs) else none

/-- Value of a run of decimal digit characters, as Python `int` parses it. -/
def digitsToNat (ds : List Char) : Nat :=
  ds.foldl (fun acc c => acc * 10 + (c.toNat - 48)) 0

/-- Embeds `parse_trailing_number` (source lines 47-58): split the name on
the last `-`; on the part after it take the maximal leading digit run
(`re.match` of one or more digits, modelled over ASCII digits) and parse
it; every failure case yields the sentinel. -/
def parse_trailing_number (name_str : String) : Nat :=
  if name_str == "" then SENTINEL
  else
    match rsplitLast '-' name_str.toList with
    | none => SENTINEL
    | some pq =>
      let ds := pq.2.takeWhile Char.isDigit
      if ds == [] then SENTINEL else digitsToNat ds

/-- Python `str.strip()` whitespace set (space, tab, LF, CR, VT, FF). -/
def isPySpace (c : Char) : Bool :=
  c == ' ' || c == '\t' || c == '\n' || c == '\r' || c == '\x0b' || c == '\x0c'

/-- Models Python `str.strip()`. -/
def pyStrip (s : String) : String :=
  String.mk (((s.toList.dropWhile isPySpace).reverse.dropWhile isPySpace).reverse)

/-- Models `os.path.basename` (POSIX): the part after the last `/`. -/
def basename (s : String) : String :=
  match rsplitLast '/' s.toList with
  | none => s
  | some pq => String.mk pq.2

/-- Models `os.path.dirname` (POSIX): the part up to and including the
last `/`, with trailing slashes stripped unless the head is all slashes. -/
def dirname (s : String) : String :=
  match rsplitLast '/' s.toList with
  | none => ""
  | some pq =>
    let head := pq.1 ++ ['/']
    if head.all (fun c => c == '/') then String.mk head
    else String.mk ((head.reverse.dropWhile (fun c => c == '/')).reverse)

/-- Models `os.path.join a b` (POSIX, two arguments). -/
def pathJoin (a b : String) : String :=
  if b.toList.head? == some '/' then b
  else if a == "" then a ++ b
  else if a.toList.getLast? == some '/' then a ++ b
  else a ++ "/" ++ b

/-- Models `os.path.splitext(fname)[0]` for a bare file name (no path
separator, as at the call site, where `fname` is already a basename):
drop the extension after the last dot, unless every character before
that dot is itself a dot. -/
def splitextRoot (s : String) : String :=
  match rsplitLast '.' s.toList with
  | none => s
  | some pq => if pq.1.all (fun c => c == '.') then s else String.mk pq.1

/-- Models Python `s.lower().endswith(suf)` for ASCII suffixes such as
`".kmz"` and `".png"`. -/
def endswithLower (suf s : String) : Bool :=
  (suf.toList.map Char.toLower).isSuffixOf (s.toList.map Char.toLower)

/-- Lexicographic order on character lists by code point, as Python
compares strings. -/
def lexLe : List Char → List Char → Bool
  | [], _ => true
  | _ :: _, [] => false
  | a :: xs, b :: ys =>
    if a.toNat < b.toNat then true
    else if b.toNat < a.toNat then false
    else lexLe xs ys

/-- Python string comparison `a <= b`. -/
def strLe (a b : String) : Bool := lexLe a.toList b.toList

/-! ## Stable sorting

`sorted` in Python is a stable sort.  A stable sort is determined
extensionally by the order, so the straightforward stable insertion
sort below is a faithful model. -/

def insertLe {α : Type} (le : α → α → Bool) (x : α) : List α → List α
  | [] => [x]
  | y :: ys => if le x y then x :: y :: ys else y :: insertLe le x ys

def sortLe {α : Type} (le : α → α → Bool) : List α → List α
  | [] => []
  | x :: xs => insertLe le x (sortLe le xs)

/-- Stable ascending sort by a numeric key, modelling
`sorted(overlays, key=get_overlay_key)`. -/
def sortByKey {α : Type} (key : α → Nat) (l : List α) : List α :=
  sortLe (fun a b => decide (key a ≤ key b)) l

/-- Python `sorted` over strings. -/
def sortStrings (l : List String) : List String := sortLe strLe l

/-! ## XML element trees -/

/-- An in-memory XML element: tag, optional text, ordered children.
Attributes and tails play no role in the source and are elided. -/
inductive Element where
  | mk (tag : String) (text : Option String) (children : List Element)

def Element.tag : Element → String
  | .mk t _ _ => t

def Element.text : Element → Option String
  | .mk _ x _ => x

def Element.children : Element → List Element
  | .mk _ _ c => c

mutual
def beqElement : Element → Element → Bool
  | .mk t1 x1 c1, .mk t2 x2 c2 => t1 == t2 && x1 == x2 && beqElementList c1 c2

def beqElementList : List Element → List Element → Bool
  | [], [] => true
  | a :: xs, b :: ys => beqElement a b && beqElementList xs ys
  | _, _ => false
end

/-- Overwrite the text of an element, as Python `el.text = s`. -/
def setText (s : String) : Element → Element
  | .mk t _ cs => .mk t (some s) cs

/-- An element is an Overlay Node when its (namespaced) tag is
`GroundOverlay`. -/
def isOverlay (e : Element) : Bool := e.tag == "GroundOverlay"

/- Models `root.findall(".//tag")`: all proper descendants with the
given tag, in document (preorder) order; the root itself is excluded,
as in ElementTree. -/
mutual
def findAllDesc (tag : String) : Element → List Element
  | .mk _ _ cs => findAllDescList tag cs

def findAllDescList (tag : String) : List Element → List Element
  | [] => []
  | c :: cs => (if c.tag == tag then [c] else []) ++ findAllDesc tag c ++ findAllDescList tag cs
end

/- Models `root.find(".//tag")` but returns the child-index path of the
first matching proper descendant, so that the located node can be
updated in place (the source mutates the found node through an object
reference). -/
mutual
def findFirstDescPath (tag : String) : Element → Option (List Nat)
  | .mk _ _ cs => findPathList tag 0 cs

def findPathList (tag : String) : Nat → List Element → Option (List Nat)
  | _, [] => none
  | i, c :: cs =>
    if c.tag == tag then some [i]
    else
      match findFirstDescPath tag c with
      | some p => some (i :: p)
      | none => findPathList tag (i + 1) cs
end

def modifyListAt {α : Type} (g : α → α) : Nat → List α → List α
  | _, [] => []
  | 0, c :: cs => g c :: cs
  | i + 1, c :: cs => c :: modifyListAt g i cs

/- Apply `f` to the node at the given child-index path. -/
def modifyAt (f : Element → Element) : Element → List Nat → Element
  | e, [] => f e
  | .mk t x cs, i :: p => .mk t x (modifyListAt (fun c => modifyAt f c p) i cs)

/-- Read the node at the given child-index path. -/
def getAt : Element → List Nat → Option Element
  | e, [] => some e
  | .mk _ _ cs, i :: p =>
    match cs.get? i with
    | some c => getAt c p
    | none => none

/-- Models `list.remove(x)` on a children list: drop the first matching
child, `none` (a `ValueError` in Python) when `x` is not a child. -/
def removeFirst (x : Element) : List Element → Option (List Element)
  | [] => none
  | c :: cs => if beqElement c x then some cs else (removeFirst x cs).map (fun cs2 => c :: cs2)

/-- Remove each element of the first list from the second in turn,
failing like Python `remove` if one is absent. -/
def removeAll : List Element → List Element → Option (List Element)
  | [], cs => some cs
  | x :: xs, cs =>
    match removeFirst x cs with
    | none => none
    | some cs2 => removeAll xs cs2

/- Models `el.find(".//kml:Icon/kml:href")`: the first `href` direct
child of a descendant `Icon`, scanning `Icon` elements in document
order. -/
mutual
def findIconHref : Element → Option Element
  | .mk _ _ cs => findIconHrefList cs

def findIconHrefList : List Element → Option Element
  | [] => none
  | c :: cs =>
    match (if c.tag == "Icon" then c.children.find? (fun d => d.tag == "href") else none) with
    | some h => some h
    | none =>
      match findIconHref c with
      | some h => some h
      | none => findIconHrefList cs
end

/- Overwrite the text of the first direct `href` child, if any. -/
def setHrefChildText (v : String) : List Element → Option (List Element)
  | [] => none
  | d :: ds =>
    if d.tag == "href" then some (setText v d :: ds)
    else (setHrefChildText v ds).map (fun ds2 => d :: ds2)

def setIconHrefDirect (v : String) : Element → Option Element
  | .mk t x cs => (setHrefChildText v cs).map (fun cs2 => Element.mk t x cs2)

/- Overwrite the text of the node `find(".//kml:Icon/kml:href")` would
return, following the same traversal; `none` when there is no match
(the source then leaves the clone unchanged). -/
mutual
def setIconHref (v : String) : Element → Option Element
  | .mk t x cs => (setIconHrefList v cs).map (fun cs2 => Element.mk t x cs2)

def setIconHrefList (v : String) : List Element → Option (List Element)
  | [] => none
  | c :: cs =>
    match (if c.tag == "Icon" then setIconHrefDirect v c else none) with
    | some c2 => some (c2 :: cs)
    | none =>
      match setIconHref v c with
      | some c2 => some (c2 :: cs)
      | none => (setIconHrefList v cs).map (fun cs2 => c :: cs2)
end

/- Overwrite the text of the node `find(".//kml:name")` would return
(first descendant named `name`, preorder); `none` when absent. -/
mutual
def setNameDesc (v : String) : Element → Option Element
  | .mk t x cs => (setNameList v cs).map (fun cs2 => Element.mk t x cs2)

def setNameList (v : String) : List Element → Option (List Element)
  | [] => none
  | c :: cs =>
    if c.tag == "name" then some (setText v c :: cs)
    else
      match setNameDesc v c with
      | some c2 => some (c2 :: cs)
      | none => (setNameList v cs).map (fun cs2 => c :: cs2)
end

/-! ## The overlay-document transformer (`modify_kml`) -/

/- Models `get_overlay_key` inside `reorder_overlays` (source lines
67-71): read the first descendant `name`; a missing element or falsy
text yields the sentinel. -/
def get_overlay_key (overlay : Element) : Nat :=
  match (findAllDesc "name" overlay).head? with
  | some nameEl =>
    match nameEl.text with
    | some s => if s == "" then SENTINEL else parse_trailing_number s
    | none => SENTINEL
  | none => SENTINEL

/-- Embeds `reorder_overlays` (source lines 60-81): stable-sort the
direct `GroundOverlay` children by key, remove them all, and re-append
them in sorted order; other children keep their places in front. -/
def reorder_overlays (document_node : Element) : Element :=
  match document_node with
  | .mk t x cs =>
    .mk t x (cs.filter (fun c => !(isOverlay c)) ++ sortByKey get_overlay_key (cs.filter isOverlay))

/-- Direct-child `find("kml:name")` plus text assignment used to rename
the group node (source lines 118-123): set the text of the first direct
`name` child, else append a fresh `name` element. -/
def setDirectName (v : String) : List Element → Option (List Element)
  | [] => none
  | c :: cs =>
    if c.tag == "name" then some (setText v c :: cs)
    else (setDirectName v cs).map (fun cs2 => c :: cs2)

def renameGroupNode (v : String) : Element → Element
  | .mk t x cs =>
    match setDirectName v cs with
    | some cs2 => .mk t x cs2
    | none => .mk t x (cs ++ [Element.mk "name" (some v) []])

/-- Embeds the clone construction of one loop iteration (source lines
151-163): deep-copy the template, rewrite the first `Icon/href` text to
`subfolder_name/fname` and the first descendant `name` text to the file
name without extension; a missing target leaves the clone unchanged. -/
def cloneOverlay (first_overlay : Element) (subfolder_name fname : String) : Element :=
  let c1 :=
    match setIconHref (subfolder_name ++ "/" ++ fname) first_overlay with
    | some e => e
    | none => first_overlay
  match setNameDesc (splitextRoot fname) c1 with
  | some e => e
  | none => c1

/-- All mutations `modify_kml` performs at the group node, in source
order: rename (lines 117-123), append one clone per entry of the create
list (lines 150-166), reorder (line 183).  The file-copy side effects
in between do not read or write the tree. -/
def transformGroupNode (first_overlay : Element) (createNames : List String)
    (subfolder_name : String) (document_node : Element) : Element :=
  let d1 := renameGroupNode subfolder_name document_node
  let clones := createNames.map (fun f => cloneOverlay first_overlay subfolder_name f)
  reorder_overlays (Element.mk d1.tag d1.text (d1.children ++ clones))

/-- The template asset name (source lines 125-129): basename of the
stripped `Icon/href` text of the first overlay; `none` when the element
is missing or its text is falsy. -/
def originalPng (first_overlay : Element) : Option String :=
  match findIconHref first_overlay with
  | some el =>
    match el.text with
    | some s => if s == "" then none else some (basename (pyStrip s))
    | none => none
  | none => none

/-- The dedup test of source line 141: `original_png and fname == original_png`. -/
def matchesOriginal (orig : Option String) (fname : String) : Bool :=
  match orig with
  | some o => !(o == "") && fname == o
  | none => false

/-- `(abs_path, fname)` pairs of source lines 132-135. -/
def allPngs (png_filepaths : List String) : List (String × String) :=
  png_filepaths.map (fun p => (p, basename p))

/-- The create list of source lines 138-144: assets that do not match
the template asset name. -/
def createList (first_overlay : Element) (png_filepaths : List String) :
    List (String × String) :=
  (allPngs png_filepaths).filter
    (fun pf => !(matchesOriginal (originalPng first_overlay) pf.2))

/-- A filesystem side effect of `modify_kml`. -/
inductive FsOp where
  | makedirs (path : String)
  | copyFile (src dst : String)
  | writeKml (path : String)

/-- Outcome of `modify_kml`: normal return `True` with the rewritten
tree and the side effects in order; return `False` (no overlay found,
source lines 98-100) with the untouched tree and no effects; or a
propagating exception. -/
inductive ModOutcome where
  | ok (tree : Element) (effects : List FsOp)
  | noOverlay (tree : Element) (effects : List FsOp)
  | raised (msg : String)

/-- The side effects of a successful `modify_kml` run, in source order
(lines 168-180, 186): create the asset subfolder when absent, copy each
existing source asset, write the document back. -/
def modEffects (kml_path : String) (png_filepaths : List String) (subfolder_name : String)
    (path_exists is_file : String → Bool) : List FsOp :=
  let subfolder_fullpath := pathJoin (dirname kml_path) subfolder_name
  (if path_exists subfolder_fullpath then [] else [FsOp.makedirs subfolder_fullpath])
    ++ (allPngs png_filepaths).filterMap (fun pf =>
        if is_file pf.1 then some (FsOp.copyFile pf.1 (pathJoin subfolder_fullpath pf.2))
        else none)
    ++ [FsOp.writeKml kml_path]

/-- The group-node lookup of source lines 104-106: first descendant
`Document`, else first descendant `Folder`. -/
def locateGroupPath (root : Element) : Option (List Nat) :=
  match findFirstDescPath "Document" root with
  | some p => some p
  | none => findFirstDescPath "Folder" root

/-- Embeds `modify_kml` (source lines 83-187) on an already-parsed tree
(`ET.parse` failure is handled at the driver level, where the exception
propagates).  When no group node exists, a fresh `Document` is appended
to the root and every overlay `findall(".//GroundOverlay")` returned is
removed from the root child list and re-appended under it; `remove`
raises `ValueError` when such an overlay is not a direct child of the
root (source lines 109-115). -/
def modify_kml (kml_path : String) (tree : Element) (png_filepaths : List String)
    (subfolder_name : String) (path_exists is_file : String → Bool) : ModOutcome :=
  let overlays := findAllDesc "GroundOverlay" tree
  match overlays with
  | [] => .noOverlay tree []
  | first_overlay :: _ =>
    let names := (createList first_overlay png_filepaths).map (fun pf => pf.2)
    match locateGroupPath tree with
    | some p =>
      .ok (modifyAt (transformGroupNode first_overlay names subfolder_name) tree p)
        (modEffects kml_path png_filepaths subfolder_name path_exists is_file)
    | none =>
      match removeAll overlays tree.children with
      | none => .raised "ValueError"
      | some remaining =>
        .ok (Element.mk tree.tag tree.text
              (remaining ++
                [transformGroupNode first_overlay names subfolder_name
                  (Element.mk "Document" none overlays)]))
          (modEffects kml_path png_filepaths subfolder_name path_exists is_file)

/-! ## Archive packing (`create_kmz`) -/

/- A directory tree: files and named subdirectories, both in arbitrary
on-disk order. -/
mutual
inductive DirTree where
  | node (files : List String) (subs : List SubDir)

inductive SubDir where
  | sub (sdName : String) (tree : DirTree)
end

def SubDir.sdName : SubDir → String
  | .sub n _ => n

def SubDir.tree : SubDir → DirTree
  | .sub _ t => t

def DirTree.files : DirTree → List String
  | .node fs _ => fs

def DirTree.subs : DirTree → List SubDir
  | .node _ s => s

/-- Subdirectories sorted by name, modelling `dirs.sort()`. -/
def sortSubs (l : List SubDir) : List SubDir :=
  sortLe (fun a b => strLe a.sdName b.sdName) l

/-- Models the `os.walk` loop of `create_kmz` (source lines 37-45) with
`dirs.sort()` and `files.sort()`: emit the current directory file
arcnames in sorted order, then recurse into each subdirectory in sorted
name order.  `fuel` bounds the recursion depth; `create_kmz` supplies
the tree depth, so the walk is complete. -/
def walkFiles (fuel : Nat) (pre : String) (t : DirTree) : List String :=
  match fuel, t with
  | 0, _ => []
  | fuel + 1, .node files subs =>
    ((sortStrings files).map (fun f => pathJoin pre f))
      ++ ((sortSubs subs).map (fun sd => walkFiles fuel (pathJoin pre sd.sdName) sd.tree)).flatten

mutual
def treeDepth : DirTree → Nat
  | .node _ subs => subsDepth subs + 1

def subsDepth : List SubDir → Nat
  | [] => 0
  | .sub _ d :: rest => max (treeDepth d) (subsDepth rest)
end

/-- Embeds `create_kmz` (source lines 32-45): the sequence of archive
member paths, in the order they are written into the zip. -/
def create_kmz (source_dir : DirTree) : List String :=
  walkFiles (treeDepth source_dir) "" source_dir

/-! ## The batch driver (`process_subfolder` and `main`) -/

/-- The environment one batch unit runs in: the subfolder listing plus
oracles for each step that touches the outside world.  `parseResult =
none` models `ET.parse` raising `ParseError` on malformed markup;
`extractRaises` and `repackRaises` model archive errors. -/
structure UnitEnv where
  subfolderPath : String
  files : List String
  extractRaises : Bool
  kmlFile : Option String
  parseResult : Option Element
  pathExists : String → Bool
  isFile : String → Bool
  repackRaises : Bool

/-- Outcome of `process_subfolder`: a normal boolean return or a
propagating exception, in both cases recording whether the temporary
working directory was created and whether it was removed again. -/
inductive ProcOutcome where
  | ret (success : Bool) (tempCreated : Bool) (tempRemoved : Bool)
  | exn (msg : String) (tempCreated : Bool) (tempRemoved : Bool)

/-- Embeds `process_subfolder` (source lines 189-255).  Control flow in
source order: skip without a temp dir when no `.kmz` or no `.png` is
present; create the temp dir; extraction failure propagates; a missing
`.kml` is a skip with cleanup; `ET.parse` failure inside `modify_kml`
propagates without cleanup; a `False` from `modify_kml` is a skip with
cleanup; a `ValueError` from `modify_kml` propagates without cleanup;
repack failure propagates without cleanup; success cleans up. -/
def process_subfolder (u : UnitEnv) : ProcOutcome :=
  let subfolder_name := basename u.subfolderPath
  let kmz_files := u.files.filter (fun f => endswithLower ".kmz" f)
  if kmz_files == [] then .ret false false false
  else
    let png_files := u.files.filter (fun f => endswithLower ".png" f)
    if png_files == [] then .ret false false false
    else if u.extractRaises then .exn "BadZipFile" true false
    else
      match u.kmlFile with
      | none => .ret false true true
      | some kml_path =>
        match u.parseResult with
        | none => .exn "ParseError" true false
        | some tree =>
          match modify_kml kml_path tree
              (png_files.map (fun f => pathJoin u.subfolderPath f))
              subfolder_name u.pathExists u.isFile with
          | .noOverlay _ _ => .ret false true true
          | .raised m => .exn m true false
          | .ok _ _ =>
            if u.repackRaises then .exn "OSError" true false
            else .ret true true true

/-- Embeds the unit loop of `main` (source lines 285-301): process the
units in order inside one `try`; a normal return feeds the success
count, while the first exception aborts the loop (the handler shows the
error and returns).  Result: the success count, and `some (i, msg)`
when processing halted at the unit with index `i`. -/
def runBatch : List UnitEnv → Nat × Option (Nat × String)
  | [] => (0, none)
  | u :: rest =>
    match process_subfolder u with
    | .ret ok _ _ =>
      let r := runBatch rest
      ((if ok then 1 else 0) + r.1, r.2.map (fun p => (p.1 + 1, p.2)))
    | .exn m _ _ => (0, some (0, m))

/-- A unit counts as a success when `process_subfolder` returns `True`. -/
def unitSucceeds (u : UnitEnv) : Bool :=
  match process_subfolder u with
  | .ret true _ _ => true
  | _ => false

/-- The success count `main` reports for a prefix of units. -/
def successCount (us : List UnitEnv) : Nat := (us.filter unitSucceeds).length


/-! ## Shape skeletons and derived readers -/

/-- The tag skeleton of an element tree: what remains when every text
field is erased.  The clone setters only overwrite text, so they
preserve the skeleton; tag-driven searches are governed by it. -/
inductive Shape where
  | mk (tag : String) (children : List Shape)

mutual
def shapeOf : Element → Shape
  | .mk t _ cs => .mk t (shapeOfList cs)

def shapeOfList : List Element → List Shape
  | [] => []
  | c :: cs => shapeOf c :: shapeOfList cs
end

/-- The asset filename an Overlay Node references: the basename of the
text of its first `Icon/href` descendant. -/
def refBase (e : Element) : Option String :=
  match findIconHref e with
  | some el =>
    match el.text with
    | some s => some (basename s)
    | none => none
  | none => none

/-- Number of input assets whose filename matches the template asset
(the complement of the create list). -/
def matchCount (first_overlay : Element) (png_filepaths : List String) : Nat :=
  ((allPngs png_filepaths).filter
    (fun pf => matchesOriginal (originalPng first_overlay) pf.2)).length

/-! ## Concrete instances used by specific claims -/

/-- The template overlay of the specification scenario: named
`N56E29-001`, referencing `base.png`. -/
def tplScenario : Element :=
  .mk "GroundOverlay" none
    [.mk "name" (some "N56E29-001") [],
     .mk "Icon" none [.mk "href" (some "base.png") []]]

/-- The scenario document: a `Document` group containing the template. -/
def treeScenario : Element := .mk "kml" none [.mk "Document" none [tplScenario]]

/-- An overlay with a parseable suffix whose value exceeds the sentinel. -/
def ovParseBig : Element := .mk "GroundOverlay" none [.mk "name" (some "x-1000000000") []]

/-- An overlay whose name has no separator, hence no parseable suffix. -/
def ovUnparse : Element := .mk "GroundOverlay" none [.mk "name" (some "y") []]

/-- A group node holding the two overlays above, parseable one first. -/
def C2doc : Element := .mk "Document" none [ovParseBig, ovUnparse]

/-- Spec-side predicate (from the words of the ordering property): the
display name of the overlay yields a parseable numeric suffix, that is,
the name element exists with truthy text, the text has a separator, and
a digit follows the last separator. -/
def hasParseableSuffix (e : Element) : Bool :=
  match (findAllDesc "name" e).head? with
  | some nameEl =>
    match nameEl.text with
    | some s =>
      if s == "" then false
      else
        match rsplitLast '-' s.toList with
        | some pq => !(pq.2.takeWhile Char.isDigit == [])
        | none => false
    | none => false
  | none => false

/-- The temp-directory bookkeeping of an outcome: (created, removed). -/
def tempState : ProcOutcome → Bool × Bool
  | .ret _ c r => (c, r)
  | .exn _ c r => (c, r)

/-- A unit whose primary document fails to parse (`ET.parse` raises). -/
def parseFailUnit : UnitEnv :=
  { subfolderPath := "main/N56E29"
    files := ["orig.kmz", "base.png"]
    extractRaises := false
    kmlFile := some "out/temp_extract_N56E29/doc.kml"
    parseResult := none
    pathExists := fun _ => false
    isFile := fun _ => true
    repackRaises := false }

/-- A unit that processes successfully end to end. -/
def goodUnit : UnitEnv :=
  { subfolderPath := "main/N56E29"
    files := ["orig.kmz", "base.png"]
    extractRaises := false
    kmlFile := some "out/temp_extract_N56E29/doc.kml"
    parseResult := some treeScenario
    pathExists := fun _ => false
    isFile := fun _ => true
    repackRaises := false }

/-- A document with an overlay nested inside a wrapper element and no
`Document` or `Folder` anywhere. -/
def C8nestedTree : Element := .mk "kml" none [.mk "Wrap" none [tplScenario]]

/-- The group node `modify_kml` produces in the C1 counterexample run. -/
def C1badDoc : Element :=
  .mk "Document" none
    [.mk "name" (some "N56E29") [],
     .mk "GroundOverlay" none
       [.mk "name" (some "N56E29-001") [],
        .mk "Icon" none [.mk "href" (some "base.png") []]],
     .mk "GroundOverlay" none
       [.mk "name" (some "a") [],
        .mk "Icon" none [.mk "href" (some "N56E29/a.png") []]]]

/-- The directory tree refuting global lexicographic member order: a
top-level file `b.txt` next to a subdirectory `a` holding `x.txt`. -/
def C9tree : DirTree := .node ["b.txt"] [.sub "a" (.node ["x.txt"] [])]

/-! ## General lemmas: `rsplit` -/

theorem rsplitLast_eq_none_of_not_mem (sep : Char) (cs : List Char) (h : sep ∉ cs) :
    rsplitLast sep cs = none := by
  induction cs with
  | nil => rfl
  | cons c cs ih =>
    have hc : c ≠ sep := fun he => h (he ▸ List.mem_cons_self c cs)
    have hcs : sep ∉ cs := fun hm => h (List.mem_cons_of_mem c hm)
    have hb : (c == sep) = false := by simpa using hc
    simp [rsplitLast, ih hcs, hb]

theorem not_mem_of_rsplitLast_eq_none (sep : Char) (cs : List Char)
    (h : rsplitLast sep cs = none) : sep ∉ cs := by
  induction cs with
  | nil => simp
  | cons c cs ih =>
    simp only [rsplitLast] at h
    cases hr : rsplitLast sep cs with
    | some pq => rw [hr] at h; simp at h
    | none =>
      rw [hr] at h
      by_cases hc : (c == sep) = true
      · rw [if_pos hc] at h; simp at h
      · rw [if_neg hc] at h
        intro hmem
        rcases List.mem_cons.mp hmem with rfl | hm
        · simp at hc
        · exact (ih hr) hm

theorem rsplitLast_append (sep : Char) (pre suf : List Char) (h : sep ∉ suf) :
    rsplitLast sep (pre ++ sep :: suf) = some (pre, suf) := by
  induction pre with
  | nil =>
    simp only [List.nil_append, rsplitLast, rsplitLast_eq_none_of_not_mem sep suf h]
    simp
  | cons c pre ih =>
    simp [rsplitLast, ih]

theorem rsplitLast_spec (sep : Char) (cs pre suf : List Char)
    (h : rsplitLast sep cs = some (pre, suf)) :
    cs = pre ++ sep :: suf ∧ sep ∉ suf := by
  induction cs generalizing pre suf with
  | nil => simp [rsplitLast] at h
  | cons c cs ih =>
    simp only [rsplitLast] at h
    cases hr : rsplitLast sep cs with
    | some pq =>
      rw [hr] at h
      simp only [Option.some.injEq, Prod.mk.injEq] at h
      obtain ⟨h1, h2⟩ := h
      obtain ⟨hcs, hnm⟩ := ih pq.1 pq.2 (by rw [hr])
      subst h2
      rw [← h1, hcs]
      exact ⟨rfl, hnm⟩
    | none =>
      rw [hr] at h
      by_cases hc : (c == sep) = true
      · rw [if_pos hc] at h
        simp only [Option.some.injEq, Prod.mk.injEq] at h
        obtain ⟨h1, h2⟩ := h
        have hcse : c = sep := by simpa using hc
        subst h1; subst h2
        rw [hcse]
        exact ⟨rfl, not_mem_of_rsplitLast_eq_none sep cs hr⟩
      · rw [if_neg hc] at h
        simp at h

/-! ## General lemmas: stable insertion sort -/

theorem insertLe_perm {α : Type} (le : α → α → Bool) (x : α) (l : List α) :
    (insertLe le x l).Perm (x :: l) := by
  induction l with
  | nil => exact List.Perm.refl _
  | cons y ys ih =>
    by_cases h : le x y = true
    · simp [insertLe, h]
    · simp only [insertLe, if_neg h]
      exact (ih.cons y).trans (List.Perm.swap x y ys)

theorem sortLe_perm {α : Type} (le : α → α → Bool) (l : List α) :
    (sortLe le l).Perm l := by
  induction l with
  | nil => exact List.Perm.refl _
  | cons x xs ih => exact (insertLe_perm le x (sortLe le xs)).trans (ih.cons x)

theorem insertLe_pairwise {α : Type} (le : α → α → Bool)
    (htot : ∀ a b, le a b = false → le b a = true)
    (htrans : ∀ a b c, le a b = true → le b c = true → le a c = true)
    (x : α) (l : List α) (h : List.Pairwise (fun a b => le a b = true) l) :
    List.Pairwise (fun a b => le a b = true) (insertLe le x l) := by
  induction l with
  | nil => simp [insertLe]
  | cons y ys ih =>
    rw [List.pairwise_cons] at h
    obtain ⟨hy, hys⟩ := h
    by_cases hle : le x y = true
    · simp only [insertLe, if_pos hle]
      rw [List.pairwise_cons]
      refine ⟨?_, List.pairwise_cons.mpr ⟨hy, hys⟩⟩
      intro a ha
      rcases List.mem_cons.mp ha with hax | hmem
      · rw [hax]; exact hle
      · exact htrans x y a hle (hy a hmem)
    · simp only [insertLe, if_neg hle]
      rw [List.pairwise_cons]
      constructor
      · intro a ha
        have hmem := (insertLe_perm le x ys).mem_iff.mp ha
        rcases List.mem_cons.mp hmem with hax | hmem2
        · rw [hax]; exact htot x y (by simpa using hle)
        · exact hy a hmem2
      · exact ih hys

theorem sortLe_pairwise {α : Type} (le : α → α → Bool)
    (htot : ∀ a b, le a b = false → le b a = true)
    (htrans : ∀ a b c, le a b = true → le b c = true → le a c = true)
    (l : List α) :
    List.Pairwise (fun a b => le a b = true) (sortLe le l) := by
  induction l with
  | nil => simp [sortLe]
  | cons x xs ih => exact insertLe_pairwise le htot htrans x (sortLe le xs) ih

theorem sortByKey_perm {α : Type} (key : α → Nat) (l : List α) :
    (sortByKey key l).Perm l := sortLe_perm _ l

theorem sortByKey_pairwise {α : Type} (key : α → Nat) (l : List α) :
    List.Pairwise (fun a b => key a ≤ key b) (sortByKey key l) := by
  have h := sortLe_pairwise (fun a b => decide (key a ≤ key b))
    (fun a b hab => by simp at hab ⊢; omega)
    (fun a b c hab hbc => by simp at hab hbc ⊢; omega) l
  exact h.imp (fun hab => by simpa using hab)

theorem insertKey_filter {α : Type} (key : α → Nat) (x : α) (l : List α) (k : Nat) :
    (insertLe (fun a b => decide (key a ≤ key b)) x l).filter (fun a => key a == k) =
      if key x == k then x :: l.filter (fun a => key a == k)
      else l.filter (fun a => key a == k) := by
  induction l with
  | nil =>
    by_cases hk : (key x == k) = true <;> simp [insertLe, List.filter, hk]
  | cons y ys ih =>
    by_cases hle : key x ≤ key y
    · rw [show insertLe (fun a b => decide (key a ≤ key b)) x (y :: ys) = x :: y :: ys
        from by simp [insertLe, hle]]
      by_cases hk : (key x == k) = true <;> simp [List.filter_cons, hk]
    · rw [show insertLe (fun a b => decide (key a ≤ key b)) x (y :: ys) =
          y :: insertLe (fun a b => decide (key a ≤ key b)) x ys
        from by simp [insertLe, hle]]
      rw [List.filter_cons, ih]
      by_cases hk : (key x == k) = true
      · have hxk : key x = k := by simpa using hk
        have hyk : (key y == k) = false := by
          apply beq_eq_false_iff_ne.mpr
          omega
        simp [hk, hyk, List.filter_cons]
      · simp [hk, List.filter_cons]

theorem sortByKey_filter {α : Type} (key : α → Nat) (l : List α) (k : Nat) :
    (sortByKey key l).filter (fun a => key a == k) = l.filter (fun a => key a == k) := by
  induction l with
  | nil => rfl
  | cons x xs ih =>
    have : sortByKey key (x :: xs) =
        insertLe (fun a b => decide (key a ≤ key b)) x (sortByKey key xs) := rfl
    rw [this, insertKey_filter, ih, List.filter_cons]

/-! ## General lemmas: string order -/

theorem lexLe_total (xs ys : List Char) (h : lexLe xs ys = false) : lexLe ys xs = true := by
  induction xs generalizing ys with
  | nil => simp [lexLe] at h
  | cons a as ih =>
    cases ys with
    | nil => rfl
    | cons b bs =>
      simp only [lexLe] at h ⊢
      by_cases h1 : a.toNat < b.toNat
      · rw [if_pos h1] at h; simp at h
      · rw [if_neg h1] at h
        by_cases h2 : b.toNat < a.toNat
        · rw [if_pos h2]
        · rw [if_neg h2] at h
          have h3 : ¬ b.toNat < a.toNat := h2
          have h4 : ¬ a.toNat < b.toNat := h1
          rw [if_neg h3, if_neg h4]
          exact ih bs h

theorem lexLe_trans (xs ys zs : List Char) (h1 : lexLe xs ys = true)
    (h2 : lexLe ys zs = true) : lexLe xs zs = true := by
  induction xs generalizing ys zs with
  | nil => rfl
  | cons a as ih =>
    cases ys with
    | nil => simp [lexLe] at h1
    | cons b bs =>
      cases zs with
      | nil => simp [lexLe] at h2
      | cons c cs =>
        simp only [lexLe] at h1 h2 ⊢
        by_cases hab : a.toNat < b.toNat
        · by_cases hbc : b.toNat < c.toNat
          · rw [if_pos (by omega : a.toNat < c.toNat)]
          · rw [if_neg hbc] at h2
            by_cases hcb : c.toNat < b.toNat
            · rw [if_pos hcb] at h2; simp at h2
            · rw [if_pos (by omega : a.toNat < c.toNat)]
        · rw [if_neg hab] at h1
          by_cases hba : b.toNat < a.toNat
          · rw [if_pos hba] at h1; simp at h1
          · rw [if_neg hba] at h1
            by_cases hbc : b.toNat < c.toNat
            · rw [if_pos (by omega : a.toNat < c.toNat)]
            · rw [if_neg hbc] at h2
              by_cases hcb : c.toNat < b.toNat
              · rw [if_pos hcb] at h2; simp at h2
              · rw [if_neg hcb] at h2
                rw [if_neg (by omega : ¬ a.toNat < c.toNat),
                    if_neg (by omega : ¬ c.toNat < a.toNat)]
                exact ih bs cs h1 h2

theorem strLe_total (a b : String) (h : strLe a b = false) : strLe b a = true :=
  lexLe_total a.toList b.toList h

theorem strLe_trans (a b c : String) (h1 : strLe a b = true) (h2 : strLe b c = true) :
    strLe a c = true :=
  lexLe_trans a.toList b.toList c.toList h1 h2

theorem pathJoin_empty (b : String) : pathJoin "" b = b := by
  unfold pathJoin
  by_cases h : (b.toList.head? == some '/') = true
  · simp [h]
  · simp [h]

/-! ## Claim theorems: C7 -/

/-- Claim C7: `parse_trailing_number` splits on the last `-`; it returns
the sentinel when the name is empty, has no separator, or the part after
the last separator does not start with a digit (so also when nothing
follows the separator); otherwise it returns the value of the maximal
leading digit run of that part. -/
theorem C7_parse_trailing_number (s : String) :
    (s = "" → parse_trailing_number s = SENTINEL)
    ∧ ((Char.ofNat 45) ∉ s.toList → parse_trailing_number s = SENTINEL)
    ∧ (∀ pre suf : List Char, s.toList = pre ++ (Char.ofNat 45) :: suf →
        (Char.ofNat 45) ∉ suf →
        (∀ c rest, suf = c :: rest → c.isDigit = false) →
        parse_trailing_number s = SENTINEL)
    ∧ (∀ pre suf : List Char, ∀ c : Char, ∀ rest : List Char,
        s.toList = pre ++ (Char.ofNat 45) :: suf → (Char.ofNat 45) ∉ suf →
        suf = c :: rest → c.isDigit = true →
        parse_trailing_number s = digitsToNat (suf.takeWhile Char.isDigit)) := by
  have hdash : Char.ofNat 45 = '-' := by decide
  rw [hdash]
  refine ⟨?_, ?_, ?_, ?_⟩
  · intro h; subst h; rfl
  · intro h
    unfold parse_trailing_number
    by_cases hs : (s == "") = true
    · simp [hs]
    · rw [if_neg hs, rsplitLast_eq_none_of_not_mem '-' s.toList h]
  · intro pre suf hdec hns hnd
    have hne : (s == "") = false := by
      apply beq_eq_false_iff_ne.mpr
      intro he
      subst he
      simp at hdec
    unfold parse_trailing_number
    rw [hne, hdec, rsplitLast_append '-' pre suf hns]
    simp only [Bool.false_eq_true, if_false]
    have htw : suf.takeWhile Char.isDigit = [] := by
      cases hsuf : suf with
      | nil => rfl
      | cons c rest =>
        rw [List.takeWhile_cons, hnd c rest hsuf]
        simp
    simp [htw]
  · intro pre suf c rest hdec hns hsuf hdig
    have hne : (s == "") = false := by
      apply beq_eq_false_iff_ne.mpr
      intro he
      subst he
      simp at hdec
    unfold parse_trailing_number
    rw [hne, hdec, rsplitLast_append '-' pre suf hns]
    simp only [Bool.false_eq_true, if_false]
    have htw : (suf.takeWhile Char.isDigit == []) = false := by
      subst hsuf
      rw [List.takeWhile_cons, hdig]
      simp
    simp [htw]

/-- Witness for C7 at the naming-convention example `N56E29-001`. -/
theorem C7_parse_trailing_number_witness : parse_trailing_number "N56E29-001" = 1 := by
  have h := (C7_parse_trailing_number "N56E29-001").2.2.2
    "N56E29".toList "001".toList '0' "01".toList
    (by decide) (by decide) (by decide) (by decide)
  rw [h]
  decide

/-! ## Claim theorems: C10 -/

/-- Claim C10: with no `GroundOverlay` anywhere in the parsed tree,
`modify_kml` returns `False` at once: the returned tree is the input
tree unchanged and no filesystem effect (no subfolder creation, no
asset copy, no document write) is performed. -/
theorem C10_no_overlay_no_mutation (kml_path : String) (tree : Element)
    (png_filepaths : List String) (subfolder_name : String)
    (path_exists is_file : String → Bool)
    (h : findAllDesc "GroundOverlay" tree = []) :
    modify_kml kml_path tree png_filepaths subfolder_name path_exists is_file =
      ModOutcome.noOverlay tree [] := by
  unfold modify_kml
  rw [h]

/-- Witness for C10: a document with placemarks but no overlay. -/
theorem C10_no_overlay_no_mutation_witness :
    findAllDesc "GroundOverlay" (Element.mk "kml" none [Element.mk "Document" none []]) = []
    ∧ modify_kml "doc.kml" (Element.mk "kml" none [Element.mk "Document" none []])
        ["a.png"] "N56E29" (fun _ => true) (fun _ => true) =
      ModOutcome.noOverlay (Element.mk "kml" none [Element.mk "Document" none []]) [] :=
  ⟨rfl, C10_no_overlay_no_mutation "doc.kml" _ ["a.png"] "N56E29" _ _ rfl⟩

/-! ## Claim theorems: C2 -/

theorem parse_sentinel_none (s : String) (h : rsplitLast '-' s.toList = none) :
    parse_trailing_number s = SENTINEL := by
  unfold parse_trailing_number
  rw [h]
  simp

theorem parse_sentinel_nodigit (s : String) (pq : List Char × List Char)
    (h : rsplitLast '-' s.toList = some pq)
    (hd : pq.2.takeWhile Char.isDigit = []) :
    parse_trailing_number s = SENTINEL := by
  unfold parse_trailing_number
  rw [h]
  simp [hd]

theorem key_eq_sentinel_of_not_parseable (e : Element)
    (h : hasParseableSuffix e = false) : get_overlay_key e = SENTINEL := by
  cases hn : (findAllDesc "name" e).head? with
  | none => simp [get_overlay_key, hn]
  | some nameEl =>
    cases ht : nameEl.text with
    | none => simp [get_overlay_key, hn, ht]
    | some s =>
      simp only [hasParseableSuffix, hn, ht] at h
      by_cases hs : (s == "") = true
      · simp [get_overlay_key, hn, ht, hs]
      · rw [if_neg hs] at h
        simp only [get_overlay_key, hn, ht, if_neg hs]
        cases hr : rsplitLast '-' s.toList with
        | none => exact parse_sentinel_none s hr
        | some pq =>
          rw [hr] at h
          simp only [Bool.not_eq_false] at h
          exact parse_sentinel_nodigit s pq hr (by simpa using h)

/-- Claim C2 (amended): after `reorder_overlays` the overlay children
are the stable ascending sort by Sort Key of the previous overlay
children, appended after the unchanged non-overlay children; hence the
overlay sequence is non-decreasing in key, equal keys keep their
pre-reorder relative order, and every overlay without a parseable
suffix sits after every overlay whose key is strictly below the
sentinel.  (The unamended claim, that unparseable overlays come after
all parseable ones, fails when a parseable key reaches the sentinel
999999999 or more.) -/
theorem C2_reorder_sorted_stable (document_node : Element) :
    ((reorder_overlays document_node).children =
        document_node.children.filter (fun c => !(isOverlay c))
          ++ sortByKey get_overlay_key (document_node.children.filter isOverlay))
    ∧ List.Pairwise (fun a b => get_overlay_key a ≤ get_overlay_key b)
        (sortByKey get_overlay_key (document_node.children.filter isOverlay))
    ∧ (∀ k : Nat,
        (sortByKey get_overlay_key (document_node.children.filter isOverlay)).filter
            (fun a => get_overlay_key a == k) =
          (document_node.children.filter isOverlay).filter
            (fun a => get_overlay_key a == k))
    ∧ List.Pairwise
        (fun a b => hasParseableSuffix a = false → ¬ get_overlay_key b < SENTINEL)
        (sortByKey get_overlay_key (document_node.children.filter isOverlay)) := by
  refine ⟨?_, sortByKey_pairwise _ _, fun k => sortByKey_filter _ _ k, ?_⟩
  · cases document_node with
    | mk t x cs => rfl
  · refine (sortByKey_pairwise get_overlay_key _).imp ?_
    intro a b hab hpar
    have hs := key_eq_sentinel_of_not_parseable a hpar
    omega

/-- Counterexample to claim C2 as frozen: with overlays named
`x-1000000000` (parseable, key above the sentinel) and `y`
(unparseable, key = sentinel), the reorder places the unparseable
overlay before the parseable one. -/
theorem C2_counterexample :
    (reorder_overlays C2doc).children = [ovUnparse, ovParseBig]
    ∧ hasParseableSuffix ovUnparse = false
    ∧ hasParseableSuffix ovParseBig = true := ⟨rfl, rfl, rfl⟩

/-! ## Claim theorems: C9 -/

theorem create_kmz_flat (files : List String) :
    create_kmz (DirTree.node files []) = sortStrings files := by
  show walkFiles (treeDepth (DirTree.node files [])) "" (DirTree.node files []) = _
  rw [show treeDepth (DirTree.node files []) = 1 from rfl]
  unfold walkFiles
  simp only [sortSubs, sortLe, List.map_nil, List.flatten_nil, List.append_nil]
  rw [List.map_congr_left (fun f _ => pathJoin_empty f)]
  simp

/-- Claim C9 (amended): `create_kmz` packs deterministically with each
directory level sorted, files before subdirectory contents; for a tree
without subdirectories the member sequence is exactly the input files
in lexicographic order.  (The unamended claim of a globally
lexicographic member sequence fails as soon as a subdirectory name
sorts before a sibling file name.) -/
theorem C9_create_kmz_flat_sorted (files : List String) :
    (create_kmz (DirTree.node files [])).Perm files
    ∧ List.Pairwise (fun a b => strLe a b = true) (create_kmz (DirTree.node files [])) := by
  rw [create_kmz_flat]
  exact ⟨sortLe_perm _ _, sortLe_pairwise _ strLe_total strLe_trans _⟩

/-- Counterexample to claim C9 as frozen: walking `b.txt` next to
subdirectory `a` containing `x.txt` writes `b.txt` first, although
`a/x.txt` sorts lexicographically before it, so the member sequence is
not in lexicographic path order. -/
theorem C9_counterexample :
    create_kmz C9tree = ["b.txt", "a/x.txt"]
    ∧ strLe "a/x.txt" "b.txt" = true
    ∧ ¬ List.Pairwise (fun a b => strLe a b = true) (create_kmz C9tree) := by
  refine ⟨rfl, rfl, fun h => ?_⟩
  rw [show create_kmz C9tree = ["b.txt", "a/x.txt"] from rfl] at h
  have hb := (List.pairwise_cons.mp h).1 "a/x.txt" (List.mem_singleton.mpr rfl)
  have : strLe "b.txt" "a/x.txt" = false := by decide
  rw [this] at hb
  simp at hb


/-! ## Claim theorems: C3 -/

/-- Claim C3 (amended): on every path where `process_subfolder` returns
normally (skips for a missing container, missing assets or missing
document, a `False` from the transformer, and full success) the
temporary working directory is removed exactly when it was created;
when a step raises (archive extraction, document parsing, overlay
re-parenting, repacking) the exception propagates and the directory is
left behind, because the source has no handler and no `finally`. -/
theorem C3_cleanup_on_normal_return (u : UnitEnv) (b c r : Bool)
    (h : process_subfolder u = ProcOutcome.ret b c r) : r = c := by
  simp only [process_subfolder] at h
  repeat' split at h
  all_goals simp_all

/-- Witness for C3: the cleanup theorem applied to a unit that
processes successfully end to end. -/
theorem C3_cleanup_on_normal_return_witness :
    process_subfolder goodUnit = ProcOutcome.ret true true true ∧ (true : Bool) = true :=
  ⟨rfl, C3_cleanup_on_normal_return goodUnit true true true rfl⟩

/-- Counterexample to claim C3 as frozen: on a unit whose document
fails to parse, `ET.parse` raises inside `modify_kml`, the exception
propagates through `process_subfolder`, and the temporary directory is
created but never removed. -/
theorem C3_counterexample :
    process_subfolder parseFailUnit = ProcOutcome.exn "ParseError" true false
    ∧ ¬ (∀ u : UnitEnv,
          (tempState (process_subfolder u)).1 = true →
            (tempState (process_subfolder u)).2 = true) := by
  refine ⟨rfl, fun hc => ?_⟩
  have h := hc parseFailUnit
  rw [show process_subfolder parseFailUnit = ProcOutcome.exn "ParseError" true false
    from rfl] at h
  simp [tempState] at h

/-! ## Claim theorems: C4 -/

/-- Claim C4 (amended): a parse failure raises, and the `try` in `main`
wraps the whole unit loop, so the first parse failure halts the batch
at the failing unit: units before it are processed and counted, the
failing unit and every later unit contribute nothing.  Only the
input-shape skips (no container, no assets, no document, no overlay)
are non-fatal per-unit failures. -/
theorem C4_parse_failure_halts_batch (us vs : List UnitEnv) (u : UnitEnv)
    (m : String) (c r : Bool)
    (hus : ∀ v ∈ us, ∃ b cv rv, process_subfolder v = ProcOutcome.ret b cv rv)
    (hu : process_subfolder u = ProcOutcome.exn m c r) :
    runBatch (us ++ u :: vs) = (successCount us, some (us.length, m)) := by
  induction us with
  | nil =>
    simp only [List.nil_append, runBatch, hu]
    rfl
  | cons v us ih =>
    obtain ⟨b, cv, rv, hv⟩ := hus v (List.mem_cons_self v us)
    have ih2 := ih (fun w hw => hus w (List.mem_cons_of_mem v hw))
    have hval : unitSucceeds v = b := by
      unfold unitSucceeds
      rw [hv]
      cases b <;> rfl
    have hsc : successCount (v :: us) = (if b then 1 else 0) + successCount us := by
      unfold successCount
      rw [List.filter_cons, hval]
      cases b <;> simp [successCount] <;> omega
    have hrun : runBatch (v :: (us ++ u :: vs)) =
        ((if b then 1 else 0) + successCount us, some (us.length + 1, m)) := by
      simp only [runBatch, hv, ih2]
      rfl
    simpa [hsc, List.length_cons] using hrun

/-- Witness for C4: one good unit before a parse-failing one. -/
theorem C4_parse_failure_halts_batch_witness :
    runBatch [goodUnit, parseFailUnit] = (1, some (1, "ParseError")) := by
  have h := C4_parse_failure_halts_batch [goodUnit] [] parseFailUnit "ParseError" true false
    (fun v hv => by
      rw [show v = goodUnit from by simpa using hv]
      exact ⟨true, true, true, rfl⟩)
    rfl
  rw [show successCount [goodUnit] = 1 from rfl] at h
  exact h

/-- Counterexample to claim C4 as frozen: a parse-failing unit followed
by a unit that would succeed yields zero successes and a halt at index
0, although the second unit alone yields one success — the parse
failure aborted the whole batch instead of being skipped. -/
theorem C4_counterexample :
    runBatch [parseFailUnit, goodUnit] = (0, some (0, "ParseError"))
    ∧ runBatch [goodUnit] = (1, none) := ⟨rfl, rfl⟩


/-! ## Claim theorems: C5 -/

/-- Claim C5, evaluated: on the specification scenario (template
references `base.png`, named `N56E29-001`; assets `base.png`,
`N56E29-002.png`, `N56E29-010.png`) the code produces the three overlays
named `N56E29-001`, `N56E29-002`, `N56E29-010` in that order with the
two clone references rewritten, but the template overlay keeps its
original reference `base.png`: it is never rewritten to
`N56E29/base.png`, although the `modify_kml` docstring says the icon
href of each overlay is set to `subfolder_name/<filename>.png`. -/
theorem C5_scenario_eval :
    modify_kml "doc.kml" treeScenario ["base.png", "N56E29-002.png", "N56E29-010.png"]
        "N56E29" (fun _ => true) (fun _ => true) =
      ModOutcome.ok
        (Element.mk "kml" none
          [Element.mk "Document" none
            [Element.mk "name" (some "N56E29") [],
             Element.mk "GroundOverlay" none
               [Element.mk "name" (some "N56E29-001") [],
                Element.mk "Icon" none [Element.mk "href" (some "base.png") []]],
             Element.mk "GroundOverlay" none
               [Element.mk "name" (some "N56E29-002") [],
                Element.mk "Icon" none
                  [Element.mk "href" (some "N56E29/N56E29-002.png") []]],
             Element.mk "GroundOverlay" none
               [Element.mk "name" (some "N56E29-010") [],
                Element.mk "Icon" none
                  [Element.mk "href" (some "N56E29/N56E29-010.png") []]]]])
        [FsOp.copyFile "base.png" "N56E29/base.png",
         FsOp.copyFile "N56E29-002.png" "N56E29/N56E29-002.png",
         FsOp.copyFile "N56E29-010.png" "N56E29/N56E29-010.png",
         FsOp.writeKml "doc.kml"]
    ∧ "base.png" ≠ "N56E29/base.png" :=
  ⟨rfl, by decide⟩


/-! ## Tree lemmas: descendant search -/

theorem findAllDescList_append (tag : String) (cs ds : List Element) :
    findAllDescList tag (cs ++ ds) = findAllDescList tag cs ++ findAllDescList tag ds := by
  induction cs with
  | nil => simp [findAllDescList]
  | cons c cs ih => simp [findAllDescList, ih]

theorem findAllDescList_eq_filter (tag : String) (cs : List Element)
    (h : ∀ c ∈ cs, findAllDesc tag c = []) :
    findAllDescList tag cs = cs.filter (fun c => c.tag == tag) := by
  induction cs with
  | nil => rfl
  | cons c cs ih =>
    have hc := h c (List.mem_cons_self c cs)
    have ih2 := ih (fun d hd => h d (List.mem_cons_of_mem c hd))
    by_cases ht : (c.tag == tag) = true
    · simp [findAllDescList, ht, hc, ih2, List.filter_cons]
    · simp [findAllDescList, ht, hc, ih2, List.filter_cons]

theorem findAllDescList_nil_of (tag : String) (cs : List Element)
    (h : ∀ c ∈ cs, (c.tag == tag) = false ∧ findAllDesc tag c = []) :
    findAllDescList tag cs = [] := by
  rw [findAllDescList_eq_filter tag cs (fun c hc => (h c hc).2)]
  exact List.filter_eq_nil_iff.mpr (fun c hc => by simp [(h c hc).1])

theorem forall_of_findAllDescList_nil (tag : String) (cs : List Element)
    (h : findAllDescList tag cs = []) :
    ∀ c ∈ cs, (c.tag == tag) = false ∧ findAllDesc tag c = [] := by
  induction cs with
  | nil => simp
  | cons c cs ih =>
    simp only [findAllDescList, List.append_eq_nil] at h
    obtain ⟨⟨h1, h2⟩, h3⟩ := h
    have ht : (c.tag == tag) = false := by
      by_cases hb : (c.tag == tag) = true
      · rw [if_pos hb] at h1; simp at h1
      · simpa using hb
    intro d hd
    rcases List.mem_cons.mp hd with hdc | hmem
    · rw [hdc]; exact ⟨ht, h2⟩
    · exact ih h3 d hmem

mutual
theorem findFirstDescPath_none (tag : String) (e : Element)
    (h : findAllDesc tag e = []) : findFirstDescPath tag e = none := by
  cases e with
  | mk t x cs => exact findPathList_none tag 0 cs h

theorem findPathList_none (tag : String) (i : Nat) (cs : List Element)
    (h : findAllDescList tag cs = []) : findPathList tag i cs = none := by
  cases cs with
  | nil => rfl
  | cons c cs =>
    simp only [findAllDescList, List.append_eq_nil] at h
    obtain ⟨⟨h1, h2⟩, h3⟩ := h
    have ht : (c.tag == tag) = false := by
      by_cases hb : (c.tag == tag) = true
      · rw [if_pos hb] at h1; simp at h1
      · simpa using hb
    simp only [findPathList, ht, Bool.false_eq_true, if_false,
      findFirstDescPath_none tag c h2, findPathList_none tag (i + 1) cs h3]
end

/-! ## Tree lemmas: structural equality and removal -/

mutual
theorem beqElement_refl (e : Element) : beqElement e e = true := by
  cases e with
  | mk t x cs => simp [beqElement, beqElementList_refl cs]

theorem beqElementList_refl (cs : List Element) : beqElementList cs cs = true := by
  cases cs with
  | nil => rfl
  | cons c cs => simp [beqElementList, beqElement_refl c, beqElementList_refl cs]
end

mutual
theorem eq_of_beqElement (a b : Element) (h : beqElement a b = true) : a = b := by
  cases a with
  | mk t1 x1 c1 =>
    cases b with
    | mk t2 x2 c2 =>
      simp only [beqElement, Bool.and_eq_true, beq_iff_eq] at h
      obtain ⟨⟨h1, h2⟩, h3⟩ := h
      rw [h1, h2, eq_of_beqElementList c1 c2 h3]

theorem eq_of_beqElementList (as bs : List Element) (h : beqElementList as bs = true) :
    as = bs := by
  cases as with
  | nil => cases bs with
    | nil => rfl
    | cons b bs => simp [beqElementList] at h
  | cons a as =>
    cases bs with
    | nil => simp [beqElementList] at h
    | cons b bs =>
      simp only [beqElementList, Bool.and_eq_true] at h
      rw [eq_of_beqElement a b h.1, eq_of_beqElementList as bs h.2]
end

theorem removeFirst_cons_self (x : Element) (cs : List Element) :
    removeFirst x (x :: cs) = some cs := by
  simp [removeFirst, beqElement_refl]

theorem removeFirst_cons_of_ne (x c : Element) (cs : List Element)
    (h : beqElement c x = false) :
    removeFirst x (c :: cs) = (removeFirst x cs).map (fun l => c :: l) := by
  simp [removeFirst, h]

theorem removeAll_skip (xs : List Element) (c : Element) (cs : List Element)
    (h : ∀ x ∈ xs, beqElement c x = false) :
    removeAll xs (c :: cs) = (removeAll xs cs).map (fun l => c :: l) := by
  induction xs generalizing cs with
  | nil => rfl
  | cons x xs ih =>
    have hx := h x (List.mem_cons_self x xs)
    simp only [removeAll, removeFirst_cons_of_ne x c cs hx]
    cases hr : removeFirst x cs with
    | none => simp
    | some cs2 =>
      simp only [Option.map_some']
      exact ih cs2 (fun y hy => h y (List.mem_cons_of_mem x hy))

theorem removeAll_filter (p : Element → Bool) (cs : List Element) :
    removeAll (cs.filter p) cs = some (cs.filter (fun c => !(p c))) := by
  induction cs with
  | nil => rfl
  | cons c cs ih =>
    by_cases hc : p c = true
    · rw [List.filter_cons, if_pos hc]
      simp only [removeAll, removeFirst_cons_self]
      rw [ih, List.filter_cons]
      simp [hc]
    · rw [List.filter_cons, if_neg hc]
      have hne : ∀ x ∈ cs.filter p, beqElement c x = false := by
        intro x hx
        have hpx : p x = true := List.of_mem_filter hx
        by_cases hb : beqElement c x = true
        · rw [eq_of_beqElement c x hb] at hc
          exact absurd hpx hc
        · simpa using hb
      rw [removeAll_skip _ c cs hne, ih, List.filter_cons]
      simp [hc]

/-! ## Tree lemmas: shape preservation by the text setters -/

theorem shapeOf_tag_eq (e e2 : Element) (h : shapeOf e2 = shapeOf e) : e2.tag = e.tag := by
  cases e with
  | mk t x cs =>
    cases e2 with
    | mk t2 x2 cs2 =>
      simp only [shapeOf, Shape.mk.injEq] at h
      simpa [Element.tag] using h.1

mutual
theorem descLen_of_shape (tag : String) (e e2 : Element)
    (h : shapeOf e2 = shapeOf e) :
    (findAllDesc tag e2).length = (findAllDesc tag e).length := by
  cases e with
  | mk t x cs =>
    cases e2 with
    | mk t2 x2 cs2 =>
      simp only [shapeOf, Shape.mk.injEq] at h
      simp only [findAllDesc]
      exact descLenList_of_shape tag cs cs2 h.2

theorem descLenList_of_shape (tag : String) (cs cs2 : List Element)
    (h : shapeOfList cs2 = shapeOfList cs) :
    (findAllDescList tag cs2).length = (findAllDescList tag cs).length := by
  cases cs with
  | nil =>
    cases cs2 with
    | nil => rfl
    | cons c2 rest2 => simp [shapeOfList] at h
  | cons c rest =>
    cases cs2 with
    | nil => simp [shapeOfList] at h
    | cons c2 rest2 =>
      simp only [shapeOfList, List.cons.injEq] at h
      have htag : c2.tag = c.tag := shapeOf_tag_eq c c2 h.1
      have hlen := descLen_of_shape tag c c2 h.1
      have hrest := descLenList_of_shape tag rest rest2 h.2
      by_cases hct : (c.tag == tag) = true <;>
        simp only [findAllDescList, List.length_append, htag, hct, Bool.false_eq_true,
          if_true, if_false, List.length_cons, List.length_nil] <;>
        omega
end

theorem desc_nil_of_shape (tag : String) (e e2 : Element)
    (h : shapeOf e2 = shapeOf e) (hn : findAllDesc tag e = []) :
    findAllDesc tag e2 = [] := by
  have hl := descLen_of_shape tag e e2 h
  rw [hn] at hl
  exact List.length_eq_zero.mp (by simpa using hl)

theorem setText_shape (v : String) (e : Element) : shapeOf (setText v e) = shapeOf e := by
  cases e; rfl

theorem setText_tag (v : String) (e : Element) : (setText v e).tag = e.tag := by
  cases e; rfl

theorem setHrefChildText_shape (v : String) (cs cs2 : List Element)
    (h : setHrefChildText v cs = some cs2) : shapeOfList cs2 = shapeOfList cs := by
  induction cs generalizing cs2 with
  | nil => simp [setHrefChildText] at h
  | cons d ds ih =>
    simp only [setHrefChildText] at h
    by_cases ht : (d.tag == "href") = true
    · rw [if_pos ht] at h
      cases h
      simp [shapeOfList, setText_shape]
    · rw [if_neg ht] at h
      cases hr : setHrefChildText v ds with
      | none => rw [hr] at h; simp at h
      | some ds2 =>
        rw [hr, Option.map_some'] at h
        cases h
        simp [shapeOfList, ih ds2 hr]

theorem setIconHrefDirect_shape (v : String) (c c2 : Element)
    (h : setIconHrefDirect v c = some c2) : shapeOf c2 = shapeOf c := by
  cases c with
  | mk t x cs =>
    simp only [setIconHrefDirect] at h
    cases hr : setHrefChildText v cs with
    | none => rw [hr] at h; simp at h
    | some cs2 =>
      rw [hr, Option.map_some'] at h
      cases h
      simp [shapeOf, setHrefChildText_shape v cs cs2 hr]

mutual
theorem setIconHref_shape (v : String) (e e2 : Element)
    (h : setIconHref v e = some e2) : shapeOf e2 = shapeOf e := by
  cases e with
  | mk t x cs =>
    simp only [setIconHref] at h
    cases hr : setIconHrefList v cs with
    | none => rw [hr] at h; simp at h
    | some cs2 =>
      rw [hr, Option.map_some'] at h
      cases h
      simp [shapeOf, setIconHrefList_shape v cs cs2 hr]

theorem setIconHrefList_shape (v : String) (cs cs2 : List Element)
    (h : setIconHrefList v cs = some cs2) : shapeOfList cs2 = shapeOfList cs := by
  cases cs with
  | nil => simp [setIconHrefList] at h
  | cons c rest =>
    simp only [setIconHrefList] at h
    by_cases hc : (c.tag == "Icon") = true
    · rw [if_pos hc] at h
      cases hd : setIconHrefDirect v c with
      | some c2 =>
        rw [hd] at h
        cases h
        simp [shapeOfList, setIconHrefDirect_shape v c c2 hd]
      | none =>
        rw [hd] at h
        cases he : setIconHref v c with
        | some c2 =>
          rw [he] at h
          cases h
          simp [shapeOfList, setIconHref_shape v c c2 he]
        | none =>
          rw [he] at h
          cases hrest : setIconHrefList v rest with
          | none => rw [hrest] at h; simp at h
          | some rest2 =>
            rw [hrest, Option.map_some'] at h
            cases h
            simp [shapeOfList, setIconHrefList_shape v rest rest2 hrest]
    · rw [if_neg hc] at h
      cases he : setIconHref v c with
      | some c2 =>
        rw [he] at h
        cases h
        simp [shapeOfList, setIconHref_shape v c c2 he]
      | none =>
        rw [he] at h
        cases hrest : setIconHrefList v rest with
        | none => rw [hrest] at h; simp at h
        | some rest2 =>
          rw [hrest, Option.map_some'] at h
          cases h
          simp [shapeOfList, setIconHrefList_shape v rest rest2 hrest]
end

mutual
theorem setNameDesc_shape (v : String) (e e2 : Element)
    (h : setNameDesc v e = some e2) : shapeOf e2 = shapeOf e := by
  cases e with
  | mk t x cs =>
    simp only [setNameDesc] at h
    cases hr : setNameList v cs with
    | none => rw [hr] at h; simp at h
    | some cs2 =>
      rw [hr, Option.map_some'] at h
      cases h
      simp [shapeOf, setNameList_shape v cs cs2 hr]

theorem setNameList_shape (v : String) (cs cs2 : List Element)
    (h : setNameList v cs = some cs2) : shapeOfList cs2 = shapeOfList cs := by
  cases cs with
  | nil => simp [setNameList] at h
  | cons c rest =>
    simp only [setNameList] at h
    by_cases hc : (c.tag == "name") = true
    · rw [if_pos hc] at h
      cases h
      simp [shapeOfList, setText_shape]
    · rw [if_neg hc] at h
      cases he : setNameDesc v c with
      | some c2 =>
        rw [he] at h
        cases h
        simp [shapeOfList, setNameDesc_shape v c c2 he]
      | none =>
        rw [he] at h
        cases hrest : setNameList v rest with
        | none => rw [hrest] at h; simp at h
        | some rest2 =>
          rw [hrest, Option.map_some'] at h
          cases h
          simp [shapeOfList, setNameList_shape v rest rest2 hrest]
end

theorem cloneOverlay_shape (tpl : Element) (sub f : String) :
    shapeOf (cloneOverlay tpl sub f) = shapeOf tpl := by
  cases h1 : setIconHref (sub ++ "/" ++ f) tpl with
  | none =>
    cases h2 : setNameDesc (splitextRoot f) tpl with
    | none => simp [cloneOverlay, h1, h2]
    | some e2 =>
      simp only [cloneOverlay, h1, h2]
      exact setNameDesc_shape _ _ _ h2
  | some c1 =>
    cases h2 : setNameDesc (splitextRoot f) c1 with
    | none =>
      simp only [cloneOverlay, h1, h2]
      exact setIconHref_shape _ _ _ h1
    | some c2 =>
      simp only [cloneOverlay, h1, h2]
      rw [setNameDesc_shape _ _ _ h2, setIconHref_shape _ _ _ h1]

theorem cloneOverlay_tag (tpl : Element) (sub f : String) :
    (cloneOverlay tpl sub f).tag = tpl.tag :=
  shapeOf_tag_eq tpl (cloneOverlay tpl sub f) (cloneOverlay_shape tpl sub f)

theorem cloneOverlay_desc_nil (tag : String) (tpl : Element) (sub f : String)
    (h : findAllDesc tag tpl = []) :
    findAllDesc tag (cloneOverlay tpl sub f) = [] :=
  desc_nil_of_shape tag tpl (cloneOverlay tpl sub f) (cloneOverlay_shape tpl sub f) h

/-! ## Tree lemmas: the group-node transformation -/

theorem findAllDesc_setText (tag v : String) (e : Element) :
    findAllDesc tag (setText v e) = findAllDesc tag e := by
  cases e; rfl

theorem setDirectName_descList (v tg : String) (cs cs2 : List Element)
    (h : setDirectName v cs = some cs2) (htg : ("name" == tg) = false) :
    findAllDescList tg cs2 = findAllDescList tg cs := by
  induction cs generalizing cs2 with
  | nil => simp [setDirectName] at h
  | cons c rest ih =>
    simp only [setDirectName] at h
    by_cases hc : (c.tag == "name") = true
    · rw [if_pos hc] at h
      cases h
      have hct : c.tag = "name" := by simpa using hc
      simp [findAllDescList, setText_tag, findAllDesc_setText, hct, htg]
    · rw [if_neg hc] at h
      cases hr : setDirectName v rest with
      | none => rw [hr] at h; simp at h
      | some rest2 =>
        rw [hr, Option.map_some'] at h
        cases h
        simp [findAllDescList, ih rest2 hr]

theorem setDirectName_filter_overlay (v : String) (cs cs2 : List Element)
    (h : setDirectName v cs = some cs2) :
    cs2.filter isOverlay = cs.filter isOverlay := by
  induction cs generalizing cs2 with
  | nil => simp [setDirectName] at h
  | cons c rest ih =>
    simp only [setDirectName] at h
    by_cases hc : (c.tag == "name") = true
    · rw [if_pos hc] at h
      cases h
      have hct : c.tag = "name" := by simpa using hc
      have h1 : isOverlay (setText v c) = false := by
        simp [isOverlay, setText_tag, hct]
      have h2 : isOverlay c = false := by simp [isOverlay, hct]
      simp [List.filter_cons, h1, h2]
    · rw [if_neg hc] at h
      cases hr : setDirectName v rest with
      | none => rw [hr] at h; simp at h
      | some rest2 =>
        rw [hr, Option.map_some'] at h
        cases h
        simp [List.filter_cons, ih rest2 hr]

theorem renameGroupNode_tag (v : String) (d : Element) :
    (renameGroupNode v d).tag = d.tag := by
  cases d with
  | mk t x cs =>
    simp only [renameGroupNode]
    cases setDirectName v cs <;> rfl

theorem renameGroupNode_filter_overlay (v : String) (d : Element) :
    (renameGroupNode v d).children.filter isOverlay = d.children.filter isOverlay := by
  cases d with
  | mk t x cs =>
    simp only [renameGroupNode]
    cases hs : setDirectName v cs with
    | some cs2 =>
      simpa [Element.children] using setDirectName_filter_overlay v cs cs2 hs
    | none =>
      simp [Element.children, List.filter_append, isOverlay, Element.tag]

theorem renameGroupNode_descList (v tg : String) (d : Element)
    (htg : ("name" == tg) = false) :
    findAllDescList tg (renameGroupNode v d).children = findAllDescList tg d.children := by
  cases d with
  | mk t x cs =>
    simp only [renameGroupNode]
    cases hs : setDirectName v cs with
    | some cs2 =>
      simpa [Element.children] using setDirectName_descList v tg cs cs2 hs htg
    | none =>
      simp [Element.children, findAllDescList_append, findAllDescList, findAllDesc,
        Element.tag, htg]

theorem reorder_overlays_tag (d : Element) : (reorder_overlays d).tag = d.tag := by
  cases d; rfl

theorem transformGroupNode_tag (tpl : Element) (names : List String) (sub : String)
    (d : Element) : (transformGroupNode tpl names sub d).tag = d.tag := by
  unfold transformGroupNode
  rw [reorder_overlays_tag]
  simpa [Element.tag] using renameGroupNode_tag sub d

theorem transformGroupNode_children (tpl : Element) (names : List String) (sub : String)
    (d : Element) :
    (transformGroupNode tpl names sub d).children =
      ((renameGroupNode sub d).children ++ names.map (fun f => cloneOverlay tpl sub f)).filter
          (fun c => !(isOverlay c))
        ++ sortByKey get_overlay_key
            (((renameGroupNode sub d).children
                ++ names.map (fun f => cloneOverlay tpl sub f)).filter isOverlay) := rfl

theorem transform_overlay_filter (tpl : Element) (names : List String) (sub : String)
    (d : Element) (htpl : isOverlay tpl = true) :
    (transformGroupNode tpl names sub d).children.filter isOverlay =
      sortByKey get_overlay_key
        (d.children.filter isOverlay ++ names.map (fun f => cloneOverlay tpl sub f)) := by
  rw [transformGroupNode_children, List.filter_append]
  have h1 : (((renameGroupNode sub d).children
      ++ names.map (fun f => cloneOverlay tpl sub f)).filter
        (fun c => !(isOverlay c))).filter isOverlay = [] := by
    rw [List.filter_filter]
    exact List.filter_eq_nil_iff.mpr (fun a _ => by cases isOverlay a <;> simp)
  have hclones : (names.map (fun f => cloneOverlay tpl sub f)).filter isOverlay =
      names.map (fun f => cloneOverlay tpl sub f) := by
    apply List.filter_eq_self.mpr
    intro a ha
    obtain ⟨f, _, hf⟩ := List.mem_map.mp ha
    rw [← hf]
    simpa [isOverlay, cloneOverlay_tag] using htpl
  have hweb : ((renameGroupNode sub d).children
      ++ names.map (fun f => cloneOverlay tpl sub f)).filter isOverlay =
      d.children.filter isOverlay ++ names.map (fun f => cloneOverlay tpl sub f) := by
    rw [List.filter_append, renameGroupNode_filter_overlay, hclones]
  have hsorted : (sortByKey get_overlay_key
      (((renameGroupNode sub d).children
          ++ names.map (fun f => cloneOverlay tpl sub f)).filter isOverlay)).filter isOverlay =
      sortByKey get_overlay_key
        (((renameGroupNode sub d).children
            ++ names.map (fun f => cloneOverlay tpl sub f)).filter isOverlay) := by
    apply List.filter_eq_self.mpr
    intro a ha
    have hmem := (sortByKey_perm get_overlay_key _).mem_iff.mp ha
    exact List.of_mem_filter hmem
  rw [h1, hsorted, hweb]
  simp

/-! ## Case lemmas for `modify_kml` -/

theorem modify_kml_group_case (kml_path : String) (tree : Element)
    (png_filepaths : List String) (sub : String) (pe isf : String → Bool)
    (tpl : Element) (rest : List Element) (p : List Nat)
    (hov : findAllDesc "GroundOverlay" tree = tpl :: rest)
    (hp : locateGroupPath tree = some p) :
    modify_kml kml_path tree png_filepaths sub pe isf =
      ModOutcome.ok
        (modifyAt
          (transformGroupNode tpl ((createList tpl png_filepaths).map (fun pf => pf.2)) sub)
          tree p)
        (modEffects kml_path png_filepaths sub pe isf) := by
  simp only [modify_kml, hov, hp]

theorem modify_kml_synth_case (kml_path : String) (tree : Element)
    (png_filepaths : List String) (sub : String) (pe isf : String → Bool)
    (tpl : Element) (rest : List Element) (remaining : List Element)
    (hov : findAllDesc "GroundOverlay" tree = tpl :: rest)
    (hp : locateGroupPath tree = none)
    (hrm : removeAll (tpl :: rest) tree.children = some remaining) :
    modify_kml kml_path tree png_filepaths sub pe isf =
      ModOutcome.ok
        (Element.mk tree.tag tree.text
          (remaining ++
            [transformGroupNode tpl ((createList tpl png_filepaths).map (fun pf => pf.2)) sub
              (Element.mk "Document" none (tpl :: rest))]))
        (modEffects kml_path png_filepaths sub pe isf) := by
  simp only [modify_kml, hov, hp, hrm]

/-! ## Claim theorems: C1 -/

/-- Claim C1 (amended): for a document whose `Document` group holds
exactly one overlay (the template, with no overlay nested deeper),
`modify_kml` leaves the group with exactly `1 + |create list|` overlay
children, that is `1 + (N - M)` for `N` assets of which `M` match the
template asset filename; this equals `N` exactly when `M = 1`, and is
`N + 1` when no asset matches.  (The unamended claim of exactly `N`
overlays regardless of a template match fails when no asset matches.) -/
theorem C1_overlay_count
    (ktag : String) (ktext dtext : Option String) (docKids : List Element) (tpl : Element)
    (kml_path subfolder_name : String) (png_filepaths : List String)
    (path_exists is_file : String → Bool)
    (h1 : docKids.filter isOverlay = [tpl])
    (h2 : ∀ c ∈ docKids, findAllDesc "GroundOverlay" c = []) :
    ∃ t2 : Element, ∃ eff : List FsOp, ∃ g : Element,
      modify_kml kml_path (Element.mk ktag ktext [Element.mk "Document" dtext docKids])
          png_filepaths subfolder_name path_exists is_file = ModOutcome.ok t2 eff
      ∧ (findAllDesc "Document" t2).head? = some g
      ∧ (g.children.filter isOverlay).length = 1 + (createList tpl png_filepaths).length
      ∧ (matchCount tpl png_filepaths = 1 →
          (g.children.filter isOverlay).length = png_filepaths.length) := by
  have htpl : isOverlay tpl = true := by
    have : tpl ∈ docKids.filter isOverlay := by rw [h1]; exact List.mem_cons_self tpl []
    exact List.of_mem_filter this
  have hkids : findAllDescList "GroundOverlay" docKids = [tpl] := by
    rw [findAllDescList_eq_filter "GroundOverlay" docKids h2]
    simpa [isOverlay] using h1
  have hov : findAllDesc "GroundOverlay"
      (Element.mk ktag ktext [Element.mk "Document" dtext docKids]) = [tpl] := by
    simp [findAllDesc, findAllDescList, Element.tag, hkids]
  have hp : locateGroupPath (Element.mk ktag ktext [Element.mk "Document" dtext docKids]) =
      some [0] := by
    simp [locateGroupPath, findFirstDescPath, findPathList, Element.tag]
  have hmod := modify_kml_group_case kml_path _ png_filepaths subfolder_name
    path_exists is_file tpl [] [0] hov hp
  set names := (createList tpl png_filepaths).map (fun pf => pf.2) with hnames
  set g := transformGroupNode tpl names subfolder_name (Element.mk "Document" dtext docKids)
    with hg
  have hmodat : modifyAt (transformGroupNode tpl names subfolder_name)
      (Element.mk ktag ktext [Element.mk "Document" dtext docKids]) [0] =
      Element.mk ktag ktext [g] := rfl
  have hgtag : g.tag = "Document" := by
    rw [hg]
    rw [transformGroupNode_tag]
    rfl
  have hhead : (findAllDesc "Document" (Element.mk ktag ktext [g])).head? = some g := by
    simp [findAllDesc, findAllDescList, hgtag]
  have hcount : (g.children.filter isOverlay).length = 1 + names.length := by
    rw [hg, transform_overlay_filter tpl names subfolder_name _ htpl]
    have hperm := sortByKey_perm get_overlay_key
      ((Element.mk "Document" dtext docKids).children.filter isOverlay
        ++ names.map (fun f => cloneOverlay tpl subfolder_name f))
    rw [hperm.length_eq]
    simp only [Element.children, h1, List.length_append, List.length_map,
      List.length_cons, List.length_nil]
  refine ⟨Element.mk ktag ktext [g], modEffects kml_path png_filepaths subfolder_name
    path_exists is_file, g, ?_, hhead, ?_, ?_⟩
  · rw [hmod, hmodat]
  · rw [hcount, hnames]
    simp [List.length_map]
  · intro hm
    rw [hcount, hnames]
    have hsplit := List.length_eq_length_filter_add
      (l := allPngs png_filepaths)
      (fun pf => matchesOriginal (originalPng tpl) pf.2)
    have hlen : (allPngs png_filepaths).length = png_filepaths.length := by
      simp [allPngs]
    unfold matchCount at hm
    have hcl : (createList tpl png_filepaths).length =
        ((allPngs png_filepaths).filter
          (fun pf => !(matchesOriginal (originalPng tpl) pf.2))).length := by
      rfl
    simp only [List.length_map]
    omega

/-- Witness for C1: the amended count theorem at a concrete document
and a single non-matching asset. -/
theorem C1_overlay_count_witness :
    ∃ t2 : Element, ∃ eff : List FsOp, ∃ g : Element,
      modify_kml "doc.kml" (Element.mk "kml" none [Element.mk "Document" none [tplScenario]])
          ["a.png"] "N56E29" (fun _ => true) (fun _ => true) = ModOutcome.ok t2 eff
      ∧ (findAllDesc "Document" t2).head? = some g
      ∧ (g.children.filter isOverlay).length = 1 + (createList tplScenario ["a.png"]).length
      ∧ (matchCount tplScenario ["a.png"] = 1 →
          (g.children.filter isOverlay).length = List.length ["a.png"]) :=
  C1_overlay_count "kml" none none [tplScenario] tplScenario "doc.kml" "N56E29" ["a.png"]
    (fun _ => true) (fun _ => true) rfl
    (fun c hc => by
      rw [show c = tplScenario from by simpa using hc]
      rfl)

/-- Counterexample to claim C1 as frozen: one asset (`a.png`) that does
not match the template asset (`base.png`) yields a group with two
overlay children, not one. -/
theorem C1_counterexample :
    modify_kml "doc.kml" treeScenario ["a.png"] "N56E29" (fun _ => true) (fun _ => true) =
      ModOutcome.ok (Element.mk "kml" none [C1badDoc])
        [FsOp.copyFile "a.png" "N56E29/a.png", FsOp.writeKml "doc.kml"]
    ∧ (findAllDesc "Document" (Element.mk "kml" none [C1badDoc])).head? = some C1badDoc
    ∧ (C1badDoc.children.filter isOverlay).length = 2
    ∧ List.length ["a.png"] = 1 := ⟨rfl, rfl, rfl, rfl⟩


/-! ## Claim theorems: C8 -/

theorem findAllDesc_eq_children (tag : String) (e : Element) :
    findAllDesc tag e = findAllDescList tag e.children := by
  cases e; rfl

theorem setDirectName_none (v : String) (cs : List Element)
    (h : ∀ c ∈ cs, (c.tag == "name") = false) : setDirectName v cs = none := by
  induction cs with
  | nil => rfl
  | cons c rest ih =>
    have hc := h c (List.mem_cons_self c rest)
    simp [setDirectName, hc, ih (fun d hd => h d (List.mem_cons_of_mem c hd))]

/-- Claim C8 (amended): for a document with Overlay Nodes but no
`Document` and no `Folder`, whose overlays are all direct children of
the tree root, `modify_kml` appends exactly one synthesized `Document`
to the root, moves every pre-existing overlay under it, and that node
is the sole parent of all original and cloned overlays.  (The unamended
claim, quantified over every such document, fails when an overlay is
not a direct child of the root: `root.remove` then raises
`ValueError`.) -/
theorem C8_synthesis
    (ktag : String) (ktext : Option String) (kids : List Element)
    (ov1 : Element) (ovs : List Element)
    (kml_path subfolder_name : String) (png_filepaths : List String)
    (path_exists is_file : String → Bool)
    (hOvs : kids.filter isOverlay = ov1 :: ovs)
    (hNest : ∀ c ∈ kids, findAllDesc "GroundOverlay" c = [])
    (hD : findAllDescList "Document" kids = [])
    (hF : findAllDescList "Folder" kids = []) :
    ∃ d2 : Element,
      modify_kml kml_path (Element.mk ktag ktext kids) png_filepaths subfolder_name
          path_exists is_file =
        ModOutcome.ok
          (Element.mk ktag ktext (kids.filter (fun c => !(isOverlay c)) ++ [d2]))
          (modEffects kml_path png_filepaths subfolder_name path_exists is_file)
      ∧ d2.tag = "Document"
      ∧ findAllDesc "Document"
          (Element.mk ktag ktext (kids.filter (fun c => !(isOverlay c)) ++ [d2])) = [d2]
      ∧ (d2.children.filter isOverlay).Perm
          ((ov1 :: ovs) ++ (createList ov1 png_filepaths).map
            (fun pf => cloneOverlay ov1 subfolder_name pf.2))
      ∧ findAllDesc "GroundOverlay"
          (Element.mk ktag ktext (kids.filter (fun c => !(isOverlay c)) ++ [d2])) =
          d2.children.filter isOverlay := by
  have hmemOv : ∀ x ∈ ov1 :: ovs, x ∈ kids ∧ isOverlay x = true := by
    intro x hx
    have : x ∈ kids.filter isOverlay := by rw [hOvs]; exact hx
    exact ⟨(List.mem_filter.mp this).1, (List.mem_filter.mp this).2⟩
  have hDall := forall_of_findAllDescList_nil "Document" kids hD
  have hov : findAllDesc "GroundOverlay" (Element.mk ktag ktext kids) = ov1 :: ovs := by
    rw [show findAllDesc "GroundOverlay" (Element.mk ktag ktext kids) =
        findAllDescList "GroundOverlay" kids from rfl]
    rw [findAllDescList_eq_filter "GroundOverlay" kids hNest]
    rw [show (fun c => c.tag == "GroundOverlay") = isOverlay from rfl]
    exact hOvs
  have hp : locateGroupPath (Element.mk ktag ktext kids) = none := by
    have hD2 : findAllDesc "Document" (Element.mk ktag ktext kids) = [] := hD
    have hF2 : findAllDesc "Folder" (Element.mk ktag ktext kids) = [] := hF
    simp [locateGroupPath, findFirstDescPath_none "Document" _ hD2,
      findFirstDescPath_none "Folder" _ hF2]
  have hrm : removeAll (ov1 :: ovs) (Element.mk ktag ktext kids).children =
      some (kids.filter (fun c => !(isOverlay c))) := by
    rw [show (Element.mk ktag ktext kids).children = kids from rfl, ← hOvs]
    exact removeAll_filter isOverlay kids
  set names := (createList ov1 png_filepaths).map (fun pf => pf.2) with hnames
  set newDoc := Element.mk "Document" none (ov1 :: ovs) with hnewDoc
  set d2 := transformGroupNode ov1 names subfolder_name newDoc with hd2
  have hmod := modify_kml_synth_case kml_path (Element.mk ktag ktext kids) png_filepaths
    subfolder_name path_exists is_file ov1 ovs (kids.filter (fun c => !(isOverlay c)))
    hov hp hrm
  rw [← hnames, ← hnewDoc, ← hd2] at hmod
  have hd2tag : d2.tag = "Document" := by
    rw [hd2, transformGroupNode_tag]
    rfl
  -- the rename takes the append branch: every moved overlay has tag GroundOverlay
  have hovname : ∀ c ∈ ov1 :: ovs, (c.tag == "name") = false := by
    intro c hc
    have hct : c.tag = "GroundOverlay" := by
      have := (hmemOv c hc).2
      simpa [isOverlay] using this
    rw [hct]
    decide
  have hrename : renameGroupNode subfolder_name newDoc =
      Element.mk "Document" none
        ((ov1 :: ovs) ++ [Element.mk "name" (some subfolder_name) []]) := by
    rw [hnewDoc]
    simp [renameGroupNode, setDirectName_none subfolder_name _ hovname]
  -- membership of the transformed children in the flat pool
  have hpool : ∀ c ∈ d2.children,
      c ∈ ((ov1 :: ovs) ++ [Element.mk "name" (some subfolder_name) []])
        ++ names.map (fun f => cloneOverlay ov1 subfolder_name f) := by
    intro c hc
    rw [hd2, transformGroupNode_children, hrename] at hc
    rcases List.mem_append.mp hc with hm | hm
    · exact (List.mem_filter.mp hm).1
    · have := (sortByKey_perm get_overlay_key _).mem_iff.mp hm
      exact (List.mem_filter.mp this).1
  have hov1go : ov1.tag = "GroundOverlay" := by
    have := (hmemOv ov1 (List.mem_cons_self ov1 ovs)).2
    simpa [isOverlay] using this
  -- emptiness of a tag search inside every pool element
  have hpoolNil : ∀ tg : String, (∀ c ∈ kids, findAllDesc tg c = []) →
      ∀ c ∈ ((ov1 :: ovs) ++ [Element.mk "name" (some subfolder_name) []])
        ++ names.map (fun f => cloneOverlay ov1 subfolder_name f),
        findAllDesc tg c = [] := by
    intro tg hkids c hc
    rcases List.mem_append.mp hc with hm | hm
    · rcases List.mem_append.mp hm with hm2 | hm2
      · exact hkids c (hmemOv c hm2).1
      · have : c = Element.mk "name" (some subfolder_name) [] := by simpa using hm2
        rw [this]
        rfl
    · obtain ⟨f, _, hf⟩ := List.mem_map.mp hm
      rw [← hf]
      exact cloneOverlay_desc_nil tg ov1 subfolder_name f
        (hkids ov1 (hmemOv ov1 (List.mem_cons_self ov1 ovs)).1)
  -- no pool element is itself tagged Document
  have hpoolTagDoc : ∀ c ∈ ((ov1 :: ovs) ++ [Element.mk "name" (some subfolder_name) []])
      ++ names.map (fun f => cloneOverlay ov1 subfolder_name f),
      (c.tag == "Document") = false := by
    intro c hc
    rcases List.mem_append.mp hc with hm | hm
    · rcases List.mem_append.mp hm with hm2 | hm2
      · have hct : c.tag = "GroundOverlay" := by
          have := (hmemOv c hm2).2
          simpa [isOverlay] using this
        rw [hct]
        decide
      · have : c = Element.mk "name" (some subfolder_name) [] := by simpa using hm2
        rw [this]
        rfl
    · obtain ⟨f, _, hf⟩ := List.mem_map.mp hm
      rw [← hf, cloneOverlay_tag, hov1go]
      decide
  refine ⟨d2, ?_, hd2tag, ?_, ?_, ?_⟩
  · rw [hmod]
    rfl
  · -- exactly one Document descendant: the synthesized node
    rw [show findAllDesc "Document"
        (Element.mk ktag ktext (kids.filter (fun c => !(isOverlay c)) ++ [d2])) =
        findAllDescList "Document" (kids.filter (fun c => !(isOverlay c)) ++ [d2]) from rfl]
    rw [findAllDescList_append]
    have hR : findAllDescList "Document" (kids.filter (fun c => !(isOverlay c))) = [] := by
      apply findAllDescList_nil_of
      intro c hc
      exact hDall c (List.mem_filter.mp hc).1
    have hInner : findAllDesc "Document" d2 = [] := by
      rw [findAllDesc_eq_children]
      apply findAllDescList_nil_of
      intro c hc
      exact ⟨hpoolTagDoc c (hpool c hc), hpoolNil "Document" (fun c hc => (hDall c hc).2) c (hpool c hc)⟩
    rw [hR]
    simp [findAllDescList, hd2tag, hInner]
  · -- the overlay children are the originals plus the clones, reordered
    rw [hd2, transform_overlay_filter ov1 names subfolder_name newDoc
      (by simpa [isOverlay] using (hmemOv ov1 (List.mem_cons_self ov1 ovs)).2)]
    have hnewkids : newDoc.children.filter isOverlay = ov1 :: ovs := by
      rw [hnewDoc]
      apply List.filter_eq_self.mpr
      intro a ha
      exact (hmemOv a ha).2
    have hmm : names.map (fun f => cloneOverlay ov1 subfolder_name f) =
        (createList ov1 png_filepaths).map
          (fun pf => cloneOverlay ov1 subfolder_name pf.2) := by
      rw [hnames, List.map_map]
      rfl
    rw [hnewkids, hmm]
    exact sortByKey_perm get_overlay_key _
  · -- the group node is the sole parent of every overlay in the tree
    rw [show findAllDesc "GroundOverlay"
        (Element.mk ktag ktext (kids.filter (fun c => !(isOverlay c)) ++ [d2])) =
        findAllDescList "GroundOverlay" (kids.filter (fun c => !(isOverlay c)) ++ [d2])
      from rfl]
    rw [findAllDescList_append]
    have hR : findAllDescList "GroundOverlay" (kids.filter (fun c => !(isOverlay c))) = [] := by
      apply findAllDescList_nil_of
      intro c hc
      refine ⟨?_, hNest c (List.mem_filter.mp hc).1⟩
      have := (List.mem_filter.mp hc).2
      simpa [isOverlay] using this
    have hInner : findAllDescList "GroundOverlay" d2.children =
        d2.children.filter (fun c => c.tag == "GroundOverlay") := by
      apply findAllDescList_eq_filter
      intro c hc
      exact hpoolNil "GroundOverlay" hNest c (hpool c hc)
    have hd2go : (d2.tag == "GroundOverlay") = false := by
      rw [hd2tag]
      decide
    rw [hR]
    simp only [List.nil_append, findAllDescList, hd2go, Bool.false_eq_true, if_false,
      List.append_nil]
    rw [findAllDesc_eq_children, hInner]
    rfl

/-- Witness for C8: synthesis on a root whose only child is the
template overlay. -/
theorem C8_synthesis_witness :
    ∃ d2 : Element,
      modify_kml "doc.kml" (Element.mk "kml" none [tplScenario]) ["a.png"] "N56E29"
          (fun _ => true) (fun _ => true) =
        ModOutcome.ok
          (Element.mk "kml" none
            ([tplScenario].filter (fun c => !(isOverlay c)) ++ [d2]))
          (modEffects "doc.kml" ["a.png"] "N56E29" (fun _ => true) (fun _ => true))
      ∧ d2.tag = "Document"
      ∧ findAllDesc "Document"
          (Element.mk "kml" none ([tplScenario].filter (fun c => !(isOverlay c)) ++ [d2])) = [d2]
      ∧ (d2.children.filter isOverlay).Perm
          ((tplScenario :: []) ++ (createList tplScenario ["a.png"]).map
            (fun pf => cloneOverlay tplScenario "N56E29" pf.2))
      ∧ findAllDesc "GroundOverlay"
          (Element.mk "kml" none ([tplScenario].filter (fun c => !(isOverlay c)) ++ [d2])) =
          d2.children.filter isOverlay :=
  C8_synthesis "kml" none [tplScenario] tplScenario [] "doc.kml" "N56E29" ["a.png"]
    (fun _ => true) (fun _ => true) rfl
    (fun c hc => by
      rw [show c = tplScenario from by simpa using hc]
      rfl)
    rfl rfl

/-- Counterexample to claim C8 as frozen: an overlay nested inside a
wrapper element, with no `Document` and no `Folder`, makes the
synthesis path call `root.remove` on a node that is not a direct child
of the root, so `modify_kml` raises `ValueError` instead of
re-parenting. -/
theorem C8_counterexample :
    modify_kml "doc.kml" C8nestedTree ["a.png"] "U" (fun _ => true) (fun _ => true) =
      ModOutcome.raised "ValueError"
    ∧ findAllDesc "GroundOverlay" C8nestedTree = [tplScenario]
    ∧ findFirstDescPath "Document" C8nestedTree = none
    ∧ findFirstDescPath "Folder" C8nestedTree = none := ⟨rfl, rfl, rfl, rfl⟩


/-! ## Getter and setter correspondence for the clone rewrites -/

theorem setIconHref_tag (v : String) (e e2 : Element) (h : setIconHref v e = some e2) :
    e2.tag = e.tag :=
  shapeOf_tag_eq e e2 (setIconHref_shape v e e2 h)

theorem shape_children (e e2 : Element) (h : shapeOf e2 = shapeOf e) :
    shapeOfList e2.children = shapeOfList e.children := by
  cases e with
  | mk t x cs =>
    cases e2 with
    | mk t2 x2 cs2 =>
      simp only [shapeOf, Shape.mk.injEq] at h
      simpa [Element.children] using h.2

theorem find_tag_none_of_shape (tg : String) (cs cs2 : List Element)
    (h : shapeOfList cs2 = shapeOfList cs)
    (hf : cs.find? (fun d => d.tag == tg) = none) :
    cs2.find? (fun d => d.tag == tg) = none := by
  induction cs generalizing cs2 with
  | nil =>
    cases cs2 with
    | nil => rfl
    | cons c2 rest2 => simp [shapeOfList] at h
  | cons c rest ih =>
    cases cs2 with
    | nil => simp [shapeOfList] at h
    | cons c2 rest2 =>
      simp only [shapeOfList, List.cons.injEq] at h
      have htag : c2.tag = c.tag := shapeOf_tag_eq c c2 h.1
      by_cases hct : (c.tag == tg) = true
      · simp [List.find?_cons, hct] at hf
      · have hcf : (c.tag == tg) = false := by simpa using hct
        simp only [List.find?_cons, hcf, htag] at hf ⊢
        exact ih rest2 h.2 hf

theorem find_set_href_child (v : String) (cs : List Element) (h : Element)
    (hf : cs.find? (fun d => d.tag == "href") = some h) :
    ∃ cs2, setHrefChildText v cs = some cs2
      ∧ cs2.find? (fun d => d.tag == "href") = some (setText v h) := by
  induction cs with
  | nil => simp at hf
  | cons d ds ih =>
    by_cases ht : (d.tag == "href") = true
    · simp only [List.find?_cons, ht] at hf
      have hd : d = h := by simpa using hf
      refine ⟨setText v d :: ds, ?_, ?_⟩
      · simp [setHrefChildText, ht]
      · have htag2 : ((setText v d).tag == "href") = true := by
          rw [setText_tag]; exact ht
        rw [← hd]
        simp [List.find?_cons, htag2]
    · have htf : (d.tag == "href") = false := by simpa using ht
      simp only [List.find?_cons, htf] at hf
      obtain ⟨ds2, hset, hfind⟩ := ih hf
      refine ⟨d :: ds2, ?_, ?_⟩
      · simp [setHrefChildText, htf, hset]
      · simp [List.find?_cons, htf, hfind]

theorem find_none_set_href_none (v : String) (cs : List Element)
    (hf : cs.find? (fun d => d.tag == "href") = none) :
    setHrefChildText v cs = none := by
  induction cs with
  | nil => rfl
  | cons d ds ih =>
    by_cases ht : (d.tag == "href") = true
    · simp [List.find?_cons, ht] at hf
    · have htf : (d.tag == "href") = false := by simpa using ht
      simp only [List.find?_cons, htf] at hf
      simp [setHrefChildText, htf, ih hf]

theorem setIconHrefDirect_spec (v : String) (c : Element) (h : Element)
    (hf : c.children.find? (fun d => d.tag == "href") = some h) :
    ∃ c2, setIconHrefDirect v c = some c2
      ∧ c2.tag = c.tag
      ∧ c2.children.find? (fun d => d.tag == "href") = some (setText v h) := by
  cases c with
  | mk t x cs =>
    simp only [Element.children] at hf
    obtain ⟨cs2, hset, hfind⟩ := find_set_href_child v cs h hf
    exact ⟨Element.mk t x cs2, by simp [setIconHrefDirect, hset], rfl,
      by simpa [Element.children] using hfind⟩

theorem setIconHrefDirect_none (v : String) (c : Element)
    (hf : c.children.find? (fun d => d.tag == "href") = none) :
    setIconHrefDirect v c = none := by
  cases c with
  | mk t x cs =>
    simp only [Element.children] at hf
    simp [setIconHrefDirect, find_none_set_href_none v cs hf]

mutual
theorem findIconHref_set (v : String) (e : Element) :
    (∀ h : Element, findIconHref e = some h →
      ∃ e2, setIconHref v e = some e2 ∧ findIconHref e2 = some (setText v h))
    ∧ (findIconHref e = none → setIconHref v e = none) := by
  cases e with
  | mk t x cs =>
    have hl := findIconHrefList_set v cs
    constructor
    · intro h hf
      obtain ⟨cs2, hset, hfind⟩ := hl.1 h hf
      exact ⟨Element.mk t x cs2, by simp [setIconHref, hset],
        by simpa [findIconHref] using hfind⟩
    · intro hf
      simp [setIconHref, hl.2 hf]

theorem findIconHrefList_set (v : String) (cs : List Element) :
    (∀ h : Element, findIconHrefList cs = some h →
      ∃ cs2, setIconHrefList v cs = some cs2 ∧ findIconHrefList cs2 = some (setText v h))
    ∧ (findIconHrefList cs = none → setIconHrefList v cs = none) := by
  cases cs with
  | nil => exact ⟨fun h hf => by simp [findIconHrefList] at hf, fun _ => rfl⟩
  | cons c rest =>
    have hrest := findIconHrefList_set v rest
    have hc := findIconHref_set v c
    by_cases hic : (c.tag == "Icon") = true
    · cases hfd : c.children.find? (fun d => d.tag == "href") with
      | some h0 =>
        constructor
        · intro h hf
          have hh : h0 = h := by
            simp only [findIconHrefList, hic, if_true, hfd] at hf
            simpa using hf
          obtain ⟨c2, hset, hctag, hcfind⟩ := setIconHrefDirect_spec v c h0 hfd
          refine ⟨c2 :: rest, ?_, ?_⟩
          · simp [setIconHrefList, hic, hset]
          · have h2 : (c2.tag == "Icon") = true := by rw [hctag]; exact hic
            simp [findIconHrefList, h2, hcfind, hh]
        · intro hf
          simp [findIconHrefList, hic, hfd] at hf
      | none =>
        have hdn := setIconHrefDirect_none v c hfd
        cases hfe : findIconHref c with
        | some h0 =>
          constructor
          · intro h hf
            have hh : h0 = h := by
              simp only [findIconHrefList, hic, if_true, hfd, hfe] at hf
              simpa using hf
            obtain ⟨c2, hset, hfind⟩ := hc.1 h0 hfe
            have hctag : c2.tag = c.tag := setIconHref_tag v c c2 hset
            have hcsh := shape_children c c2 (setIconHref_shape v c c2 hset)
            have hc2fd : c2.children.find? (fun d => d.tag == "href") = none :=
              find_tag_none_of_shape "href" c.children c2.children hcsh hfd
            refine ⟨c2 :: rest, ?_, ?_⟩
            · simp [setIconHrefList, hic, hdn, hset]
            · have h2 : (c2.tag == "Icon") = true := by rw [hctag]; exact hic
              simp [findIconHrefList, h2, hc2fd, hfind, hh]
          · intro hf
            simp [findIconHrefList, hic, hfd, hfe] at hf
        | none =>
          have hcn := hc.2 hfe
          constructor
          · intro h hf
            have hfr : findIconHrefList rest = some h := by
              simpa [findIconHrefList, hic, hfd, hfe] using hf
            obtain ⟨rest2, hset, hfind⟩ := hrest.1 h hfr
            refine ⟨c :: rest2, ?_, ?_⟩
            · simp [setIconHrefList, hic, hdn, hcn, hset]
            · simp [findIconHrefList, hic, hfd, hfe, hfind]
          · intro hf
            have hfr : findIconHrefList rest = none := by
              simpa [findIconHrefList, hic, hfd, hfe] using hf
            simp [setIconHrefList, hic, hdn, hcn, hrest.2 hfr]
    · have hicf : (c.tag == "Icon") = false := by simpa using hic
      cases hfe : findIconHref c with
      | some h0 =>
        constructor
        · intro h hf
          have hh : h0 = h := by
            simp only [findIconHrefList, hicf, Bool.false_eq_true, if_false, hfe] at hf
            simpa using hf
          obtain ⟨c2, hset, hfind⟩ := hc.1 h0 hfe
          have hctag : c2.tag = c.tag := setIconHref_tag v c c2 hset
          have h2 : (c2.tag == "Icon") = false := by rw [hctag]; exact hicf
          refine ⟨c2 :: rest, ?_, ?_⟩
          · simp [setIconHrefList, hicf, hset]
          · simp [findIconHrefList, h2, hfind, hh]
        · intro hf
          simp [findIconHrefList, hicf, hfe] at hf
      | none =>
        have hcn := hc.2 hfe
        constructor
        · intro h hf
          have hfr : findIconHrefList rest = some h := by
            simpa [findIconHrefList, hicf, hfe] using hf
          obtain ⟨rest2, hset, hfind⟩ := hrest.1 h hfr
          refine ⟨c :: rest2, ?_, ?_⟩
          · simp [setIconHrefList, hicf, hcn, hset]
          · simp [findIconHrefList, hicf, hfe, hfind]
        · intro hf
          have hfr : findIconHrefList rest = none := by
            simpa [findIconHrefList, hicf, hfe] using hf
          simp [setIconHrefList, hicf, hcn, hrest.2 hfr]
end

theorem findIconHref_set_some (v : String) (e h : Element)
    (hf : findIconHref e = some h) :
    ∃ e2, setIconHref v e = some e2 ∧ findIconHref e2 = some (setText v h) :=
  (findIconHref_set v e).1 h hf


theorem setNameDesc_texttag (v : String) (e e2 : Element) (h : setNameDesc v e = some e2) :
    e2.tag = e.tag ∧ e2.text = e.text := by
  cases e with
  | mk t x cs =>
    simp only [setNameDesc] at h
    cases hr : setNameList v cs with
    | none => rw [hr] at h; simp at h
    | some cs2 =>
      rw [hr, Option.map_some'] at h
      cases h
      exact ⟨rfl, rfl⟩

theorem setNameDesc_children (v : String) (e e2 : Element) (h : setNameDesc v e = some e2) :
    setNameList v e.children = some e2.children := by
  cases e with
  | mk t x cs =>
    simp only [setNameDesc] at h
    cases hr : setNameList v cs with
    | none => rw [hr] at h; simp at h
    | some cs2 =>
      rw [hr, Option.map_some'] at h
      cases h
      simpa [Element.children] using hr

theorem setNameList_rel (v : String) (cs cs2 : List Element) (h : setNameList v cs = some cs2) :
    List.Forall₂ (fun d d2 => d2.tag = d.tag ∧ (d.tag = "name" ∨ d2.text = d.text)) cs cs2 := by
  induction cs generalizing cs2 with
  | nil => simp [setNameList] at h
  | cons c rest ih =>
    simp only [setNameList] at h
    by_cases hc : (c.tag == "name") = true
    · rw [if_pos hc] at h
      cases h
      constructor
      · exact ⟨setText_tag v c, Or.inl (by simpa using hc)⟩
      · exact List.forall₂_same.mpr (fun x _ => ⟨rfl, Or.inr rfl⟩)
    · rw [if_neg hc] at h
      cases he : setNameDesc v c with
      | some c2 =>
        rw [he] at h
        cases h
        constructor
        · obtain ⟨ht1, ht2⟩ := setNameDesc_texttag v c c2 he
          exact ⟨ht1, Or.inr ht2⟩
        · exact List.forall₂_same.mpr (fun x _ => ⟨rfl, Or.inr rfl⟩)
      | none =>
        rw [he] at h
        cases hr : setNameList v rest with
        | none => rw [hr] at h; simp at h
        | some rest2 =>
          rw [hr, Option.map_some'] at h
          cases h
          exact List.Forall₂.cons ⟨rfl, Or.inr rfl⟩ (ih rest2 hr)

theorem find_href_text_of_rel (cs cs2 : List Element)
    (h : List.Forall₂ (fun d d2 => d2.tag = d.tag ∧ (d.tag = "name" ∨ d2.text = d.text)) cs cs2) :
    (cs2.find? (fun d => d.tag == "href")).map Element.text =
      (cs.find? (fun d => d.tag == "href")).map Element.text := by
  induction h with
  | nil => rfl
  | @cons d d2 l1 l2 hpair hrest ih =>
    by_cases ht : (d.tag == "href") = true
    · have ht2 : (d2.tag == "href") = true := by rw [hpair.1]; exact ht
      simp only [List.find?_cons, ht, ht2, Option.map_some']
      have htx : d2.text = d.text := by
        rcases hpair.2 with hn | htx
        · rw [hn] at ht; exact absurd ht (by decide)
        · exact htx
      rw [htx]
    · have htf : (d.tag == "href") = false := by simpa using ht
      have ht2 : (d2.tag == "href") = false := by rw [hpair.1]; exact htf
      simp only [List.find?_cons, htf, ht2]
      exact ih

theorem findIconHref_setText (v : String) (e : Element) :
    findIconHref (setText v e) = findIconHref e := by
  cases e; rfl

theorem map_or_eq {α β : Type} (f : α → β) (a b : Option α) :
    (a.or b).map f = (a.map f).or (b.map f) := by
  cases a <;> simp [Option.or]

theorem findIconHrefList_cons (c : Element) (rest : List Element) :
    findIconHrefList (c :: rest) =
      ((if c.tag == "Icon" then c.children.find? (fun d => d.tag == "href") else none).or
        ((findIconHref c).or (findIconHrefList rest))) := by
  simp only [findIconHrefList]
  cases (if c.tag == "Icon" then c.children.find? (fun d => d.tag == "href") else none) <;>
    cases findIconHref c <;> simp [Option.or]

mutual
theorem setNameDesc_iconText (v : String) (e e2 : Element)
    (h : setNameDesc v e = some e2) :
    (findIconHref e2).map Element.text = (findIconHref e).map Element.text := by
  cases e with
  | mk t x cs =>
    simp only [setNameDesc] at h
    cases hr : setNameList v cs with
    | none => rw [hr] at h; simp at h
    | some cs2 =>
      rw [hr, Option.map_some'] at h
      cases h
      simpa [findIconHref] using setNameList_iconText v cs cs2 hr

theorem setNameList_iconText (v : String) (cs cs2 : List Element)
    (h : setNameList v cs = some cs2) :
    (findIconHrefList cs2).map Element.text = (findIconHrefList cs).map Element.text := by
  cases cs with
  | nil => simp [setNameList] at h
  | cons c rest =>
    simp only [setNameList] at h
    by_cases hc : (c.tag == "name") = true
    · rw [if_pos hc] at h
      cases h
      rw [findIconHrefList_cons, findIconHrefList_cons, map_or_eq, map_or_eq,
        map_or_eq, map_or_eq]
      have hct : c.tag = "name" := by simpa using hc
      have hicf : (c.tag == "Icon") = false := by rw [hct]; decide
      have hicf2 : ((setText v c).tag == "Icon") = false := by
        rw [setText_tag]; exact hicf
      simp only [hicf, hicf2, Bool.false_eq_true, if_false, findIconHref_setText]
    · rw [if_neg hc] at h
      cases he : setNameDesc v c with
      | some c2 =>
        rw [he] at h
        cases h
        rw [findIconHrefList_cons, findIconHrefList_cons, map_or_eq, map_or_eq,
          map_or_eq, map_or_eq]
        have hctag : c2.tag = c.tag := (setNameDesc_texttag v c c2 he).1
        have hdir : ((if c2.tag == "Icon"
              then c2.children.find? (fun d => d.tag == "href") else none).map
              Element.text) =
            ((if c.tag == "Icon"
              then c.children.find? (fun d => d.tag == "href") else none).map
              Element.text) := by
          rw [hctag]
          by_cases hic : (c.tag == "Icon") = true
          · simp only [hic, if_true]
            exact find_href_text_of_rel c.children c2.children
              (setNameList_rel v c.children c2.children (setNameDesc_children v c c2 he))
          · have hicf : (c.tag == "Icon") = false := by simpa using hic
            simp [hicf]
        rw [hdir, setNameDesc_iconText v c c2 he]
      | none =>
        rw [he] at h
        cases hr : setNameList v rest with
        | none => rw [hr] at h; simp at h
        | some rest2 =>
          rw [hr, Option.map_some'] at h
          cases h
          rw [findIconHrefList_cons, findIconHrefList_cons, map_or_eq, map_or_eq,
            map_or_eq, map_or_eq, setNameList_iconText v rest rest2 hr]
end

theorem setText_text (v : String) (e : Element) : (setText v e).text = some v := by
  cases e; rfl

theorem cloneOverlay_iconText (tpl : Element) (sub f : String) (h0 : Element)
    (hf : findIconHref tpl = some h0) :
    (findIconHref (cloneOverlay tpl sub f)).map Element.text =
      some (some (sub ++ "/" ++ f)) := by
  obtain ⟨c1, hset, hfind⟩ := findIconHref_set_some (sub ++ "/" ++ f) tpl h0 hf
  cases h2 : setNameDesc (splitextRoot f) c1 with
  | none =>
    simp only [cloneOverlay, hset, h2]
    rw [hfind, Option.map_some', setText_text]
  | some c2 =>
    simp only [cloneOverlay, hset, h2]
    rw [setNameDesc_iconText _ _ _ h2, hfind, Option.map_some', setText_text]

theorem string_toList_append_slash (a b : String) :
    (a ++ "/" ++ b).toList = a.toList ++ (Char.ofNat 47) :: b.toList := by
  have hd : Char.ofNat 47 = '/' := by decide
  rw [hd]
  simp [String.toList]

theorem basename_slash (a b : String) (h : (Char.ofNat 47) ∉ b.toList) :
    basename (a ++ "/" ++ b) = b := by
  have hd : Char.ofNat 47 = '/' := by decide
  unfold basename
  rw [show (a ++ "/" ++ b).toList = a.toList ++ '/' :: b.toList from by
    rw [← hd]; exact string_toList_append_slash a b]
  rw [rsplitLast_append '/' a.toList b.toList (by rw [← hd]; exact h)]
  cases b; rfl

theorem basename_no_slash (p : String) : (Char.ofNat 47) ∉ (basename p).toList := by
  have hd : Char.ofNat 47 = '/' := by decide
  rw [hd]
  unfold basename
  cases hr : rsplitLast '/' p.toList with
  | none => exact not_mem_of_rsplitLast_eq_none '/' p.toList hr
  | some pq =>
    have := (rsplitLast_spec '/' p.toList pq.1 pq.2 (by rw [hr])).2
    simpa using this

theorem refBase_clone (tpl : Element) (sub f : String) (h0 : Element)
    (hf : findIconHref tpl = some h0) (hns : (Char.ofNat 47) ∉ f.toList) :
    refBase (cloneOverlay tpl sub f) = some f := by
  have h := cloneOverlay_iconText tpl sub f h0 hf
  obtain ⟨el, hel, htext⟩ := Option.map_eq_some'.mp h
  simp only [refBase, hel, htext, basename_slash sub f hns]


/-! ## Claim theorems: C6 -/

theorem setDirectName_mem (v : String) (cs cs2 : List Element)
    (h : setDirectName v cs = some cs2) :
    ∀ c2 ∈ cs2, c2 ∈ cs ∨ ∃ c ∈ cs, c.tag = "name" ∧ c2 = setText v c := by
  induction cs generalizing cs2 with
  | nil => simp [setDirectName] at h
  | cons c rest ih =>
    simp only [setDirectName] at h
    by_cases hc : (c.tag == "name") = true
    · rw [if_pos hc] at h
      cases h
      intro c2 hc2
      rcases List.mem_cons.mp hc2 with hq | hq
      · exact Or.inr ⟨c, List.mem_cons_self c rest, by simpa using hc, hq⟩
      · exact Or.inl (List.mem_cons_of_mem c hq)
    · rw [if_neg hc] at h
      cases hr : setDirectName v rest with
      | none => rw [hr] at h; simp at h
      | some rest2 =>
        rw [hr, Option.map_some'] at h
        cases h
        intro c2 hc2
        rcases List.mem_cons.mp hc2 with hq | hq
        · exact Or.inl (hq ▸ List.mem_cons_self c rest)
        · rcases ih rest2 hr c2 hq with hm | ⟨c0, hc0, ht0, hs0⟩
          · exact Or.inl (List.mem_cons_of_mem c hm)
          · exact Or.inr ⟨c0, List.mem_cons_of_mem c hc0, ht0, hs0⟩

theorem renameGroupNode_mem (v : String) (d : Element) :
    ∀ c2 ∈ (renameGroupNode v d).children,
      c2 ∈ d.children ∨ (∃ c ∈ d.children, c.tag = "name" ∧ c2 = setText v c)
        ∨ c2 = Element.mk "name" (some v) [] := by
  cases d with
  | mk t x cs =>
    simp only [renameGroupNode]
    cases hs : setDirectName v cs with
    | some cs2 =>
      intro c2 hc2
      rcases setDirectName_mem v cs cs2 hs c2 (by simpa [Element.children] using hc2)
        with hm | hm
      · exact Or.inl (by simpa [Element.children] using hm)
      · exact Or.inr (Or.inl (by simpa [Element.children] using hm))
    | none =>
      intro c2 hc2
      have hmm : c2 ∈ cs ++ [Element.mk "name" (some v) []] := by
        simpa [Element.children] using hc2
      rcases List.mem_append.mp hmm with hm | hm
      · exact Or.inl (by simpa [Element.children] using hm)
      · exact Or.inr (Or.inr (by simpa using hm))

/-- Claim C6 (confirmed under the documented input contract of a single
template overlay): when some asset filename equals the basename of the
template overlay's asset reference, no clone is created for that asset
(every create-list entry differs from it) and the transformed document
contains exactly one Overlay Node referencing that filename: the
template node itself, unchanged. -/
theorem C6_dedup
    (ktag : String) (ktext dtext : Option String) (docKids : List Element) (tpl : Element)
    (hrefEl : Element) (s o : String)
    (kml_path subfolder_name : String) (png_filepaths : List String)
    (path_exists is_file : String → Bool)
    (h1 : docKids.filter isOverlay = [tpl])
    (h2 : ∀ c ∈ docKids, findAllDesc "GroundOverlay" c = [])
    (hHref : findIconHref tpl = some hrefEl)
    (hText : hrefEl.text = some s)
    (hsne : (s == "") = false)
    (hStrip : pyStrip s = s)
    (hO : o = basename s)
    (hOne : (o == "") = false)
    (hMatch : ∃ p ∈ png_filepaths, basename p = o) :
    ∃ t2 : Element, ∃ eff : List FsOp,
      modify_kml kml_path (Element.mk ktag ktext [Element.mk "Document" dtext docKids])
          png_filepaths subfolder_name path_exists is_file = ModOutcome.ok t2 eff
      ∧ findAllDesc "GroundOverlay" t2 =
          sortByKey get_overlay_key
            (tpl :: (createList tpl png_filepaths).map
              (fun pf => cloneOverlay tpl subfolder_name pf.2))
      ∧ (∀ pf ∈ createList tpl png_filepaths, (pf.2 == o) = false)
      ∧ (findAllDesc "GroundOverlay" t2).filter (fun e => refBase e == some o) = [tpl] := by
  have htpl : isOverlay tpl = true := by
    have : tpl ∈ docKids.filter isOverlay := by rw [h1]; exact List.mem_cons_self tpl []
    exact List.of_mem_filter this
  have htplmem : tpl ∈ docKids := by
    have : tpl ∈ docKids.filter isOverlay := by rw [h1]; exact List.mem_cons_self tpl []
    exact (List.mem_filter.mp this).1
  have hkids : findAllDescList "GroundOverlay" docKids = [tpl] := by
    rw [findAllDescList_eq_filter "GroundOverlay" docKids h2]
    simpa [isOverlay] using h1
  have hov : findAllDesc "GroundOverlay"
      (Element.mk ktag ktext [Element.mk "Document" dtext docKids]) = [tpl] := by
    simp [findAllDesc, findAllDescList, Element.tag, hkids]
  have hp : locateGroupPath (Element.mk ktag ktext [Element.mk "Document" dtext docKids]) =
      some [0] := by
    simp [locateGroupPath, findFirstDescPath, findPathList, Element.tag]
  have hmod := modify_kml_group_case kml_path _ png_filepaths subfolder_name
    path_exists is_file tpl [] [0] hov hp
  set names := (createList tpl png_filepaths).map (fun pf => pf.2) with hnames
  set g := transformGroupNode tpl names subfolder_name (Element.mk "Document" dtext docKids)
    with hg
  have hmodat : modifyAt (transformGroupNode tpl names subfolder_name)
      (Element.mk ktag ktext [Element.mk "Document" dtext docKids]) [0] =
      Element.mk ktag ktext [g] := rfl
  have hgtag : g.tag = "Document" := by
    rw [hg, transformGroupNode_tag]
    rfl
  have hopng : originalPng tpl = some o := by
    simp only [originalPng, hHref, hText, hsne, Bool.false_eq_true, if_false, hStrip, hO]
  have hcl : ∀ pf ∈ createList tpl png_filepaths, (pf.2 == o) = false := by
    intro pf hpf
    have hpf2 : pf ∈ (allPngs png_filepaths).filter
        (fun q => !(matchesOriginal (originalPng tpl) q.2)) := hpf
    have h3 := List.of_mem_filter hpf2
    rw [hopng] at h3
    simp only [matchesOriginal, hOne, Bool.not_false, Bool.true_and] at h3
    simpa using h3
  have hRmem := renameGroupNode_mem subfolder_name (Element.mk "Document" dtext docKids)
  have hgpool : ∀ c ∈ g.children, findAllDesc "GroundOverlay" c = [] := by
    intro c hc
    rw [hg, transformGroupNode_children] at hc
    have hcA : c ∈ (renameGroupNode subfolder_name
        (Element.mk "Document" dtext docKids)).children
        ++ names.map (fun f => cloneOverlay tpl subfolder_name f) := by
      rcases List.mem_append.mp hc with hm | hm
      · exact (List.mem_filter.mp hm).1
      · have := (sortByKey_perm get_overlay_key _).mem_iff.mp hm
        exact (List.mem_filter.mp this).1
    rcases List.mem_append.mp hcA with hm | hm
    · rcases hRmem c hm with hmk | ⟨c0, hc0, ht0, hst⟩ | hne
      · exact h2 c (by simpa [Element.children] using hmk)
      · rw [hst, findAllDesc_setText]
        exact h2 c0 (by simpa [Element.children] using hc0)
      · rw [hne]; rfl
    · obtain ⟨f, _, hf⟩ := List.mem_map.mp hm
      rw [← hf]
      exact cloneOverlay_desc_nil _ tpl subfolder_name f (h2 tpl htplmem)
  have hmm : names.map (fun f => cloneOverlay tpl subfolder_name f) =
      (createList tpl png_filepaths).map (fun pf => cloneOverlay tpl subfolder_name pf.2) := by
    rw [hnames, List.map_map]
    rfl
  have hdesc : findAllDesc "GroundOverlay" (Element.mk ktag ktext [g]) =
      sortByKey get_overlay_key
        (tpl :: (createList tpl png_filepaths).map
          (fun pf => cloneOverlay tpl subfolder_name pf.2)) := by
    rw [show findAllDesc "GroundOverlay" (Element.mk ktag ktext [g]) =
        findAllDescList "GroundOverlay" [g] from rfl]
    have hgtagGO : (g.tag == "GroundOverlay") = false := by
      rw [hgtag]; decide
    simp only [findAllDescList, hgtagGO, Bool.false_eq_true, if_false, List.append_nil,
      List.nil_append]
    rw [findAllDesc_eq_children, findAllDescList_eq_filter _ _ hgpool]
    rw [show (fun c => c.tag == "GroundOverlay") = isOverlay from rfl]
    rw [hg, transform_overlay_filter tpl names subfolder_name _ htpl]
    rw [show (Element.mk "Document" dtext docKids).children = docKids from rfl, h1, hmm]
    rfl
  have hreftpl : refBase tpl = some o := by
    simp only [refBase, hHref, hText, hO]
  have hclones : ((createList tpl png_filepaths).map
      (fun pf => cloneOverlay tpl subfolder_name pf.2)).filter
        (fun e => refBase e == some o) = [] := by
    apply List.filter_eq_nil_iff.mpr
    intro a ha
    obtain ⟨pf, hpf, hfa⟩ := List.mem_map.mp ha
    have hnos : (Char.ofNat 47) ∉ pf.2.toList := by
      have hpa : pf ∈ allPngs png_filepaths := (List.mem_filter.mp hpf).1
      obtain ⟨p, _, hpp⟩ := List.mem_map.mp hpa
      rw [← hpp]
      exact basename_no_slash p
    have hrb : refBase a = some pf.2 := by
      rw [← hfa]
      exact refBase_clone tpl subfolder_name pf.2 hrefEl hHref hnos
    rw [hrb]
    intro hcon
    have heq : pf.2 = o := by simpa using beq_iff_eq.mp hcon
    have hne := hcl pf hpf
    rw [heq] at hne
    simp at hne
  have hfilter : (sortByKey get_overlay_key
      (tpl :: (createList tpl png_filepaths).map
        (fun pf => cloneOverlay tpl subfolder_name pf.2))).filter
          (fun e => refBase e == some o) = [tpl] := by
    have hLf : (tpl :: (createList tpl png_filepaths).map
        (fun pf => cloneOverlay tpl subfolder_name pf.2)).filter
          (fun e => refBase e == some o) = [tpl] := by
      rw [List.filter_cons]
      have : (refBase tpl == some o) = true := by
        rw [hreftpl]
        simp
      rw [this]
      simp [hclones]
    have hperm := (sortByKey_perm get_overlay_key
      (tpl :: (createList tpl png_filepaths).map
        (fun pf => cloneOverlay tpl subfolder_name pf.2))).filter
          (fun e => refBase e == some o)
    rw [hLf] at hperm
    exact List.perm_singleton.mp hperm
  refine ⟨Element.mk ktag ktext [g], modEffects kml_path png_filepaths subfolder_name
    path_exists is_file, ?_, hdesc, hcl, ?_⟩
  · rw [hmod, hmodat]
  · rw [hdesc]
    exact hfilter

/-- Witness for C6 at the scenario template with a matching and a
non-matching asset. -/
theorem C6_dedup_witness :
    ∃ t2 : Element, ∃ eff : List FsOp,
      modify_kml "doc.kml" (Element.mk "kml" none [Element.mk "Document" none [tplScenario]])
          ["base.png", "a.png"] "N56E29" (fun _ => true) (fun _ => true) =
        ModOutcome.ok t2 eff
      ∧ findAllDesc "GroundOverlay" t2 =
          sortByKey get_overlay_key
            (tplScenario :: (createList tplScenario ["base.png", "a.png"]).map
              (fun pf => cloneOverlay tplScenario "N56E29" pf.2))
      ∧ (∀ pf ∈ createList tplScenario ["base.png", "a.png"], (pf.2 == "base.png") = false)
      ∧ (findAllDesc "GroundOverlay" t2).filter
          (fun e => refBase e == some "base.png") = [tplScenario] :=
  C6_dedup "kml" none none [tplScenario] tplScenario
    (Element.mk "href" (some "base.png") []) "base.png" "base.png"
    "doc.kml" "N56E29" ["base.png", "a.png"] (fun _ => true) (fun _ => true)
    rfl
    (fun c hc => by
      rw [show c = tplScenario from by simpa using hc]
      rfl)
    rfl rfl rfl rfl rfl rfl
    ⟨"base.png", List.mem_cons_self "base.png" ["a.png"], rfl⟩


